import Mathlib

/-!
Verification development for the StonePass repository (offline deterministic
password generator).  The C++ sources under scrutiny are `stBlock.h`,
`stChaCha.h`, `stCompressor.h`, `StoneKey.h`, `StoneRNG.h` and `StonePass.h`.

Modelling conventions:
* machine words are `Nat` with explicit reduction `% 2^32` / `% 2^64`;
* a 64-byte ChaCha block is a `List Nat` of sixteen 32-bit words;
* byte strings are `List Nat` of byte values;
* C++ exceptions are modelled with an error type `StErr`; member functions
  that mutate the object and may throw are modelled as functions
  `State → Except StErr α × State` so that the state mutations performed
  before a throw remain visible to the caller, exactly as in C++.
-/

namespace StonePass

/-- 2^32, the modulus of 32-bit machine arithmetic. -/
def M32 : Nat := 4294967296

/-- 2^64, the modulus of 64-bit machine arithmetic. -/
def M64 : Nat := 18446744073709551616

/-- `UINT64_MAX`. -/
def MAX64 : Nat := M64 - 1

/-- 32-bit left rotation (`std::rotl` on `uint32_t`).  The argument is assumed
reduced mod 2^32; the result is explicitly reduced. -/
def rotl32 (x n : Nat) : Nat :=
  ((x <<< n) % M32) ||| ((x % M32) >>> (32 - n))

/-- 64-bit left rotation (`std::rotl` on `uint64_t`). -/
def rotl64 (x n : Nat) : Nat :=
  ((x <<< n) % M64) ||| ((x % M64) >>> (64 - n))

/-- ChaCha quarter round `QR(a,b,c,d)` from `stChaCha.h`: all arithmetic is
32-bit wrapping. -/
def qr (a b c d : Nat) : Nat × Nat × Nat × Nat :=
  let a := (a + b) % M32
  let d := rotl32 ((d ^^^ a) % M32) 16
  let c := (c + d) % M32
  let b := rotl32 ((b ^^^ c) % M32) 12
  let a := (a + b) % M32
  let d := rotl32 ((d ^^^ a) % M32) 8
  let c := (c + d) % M32
  let b := rotl32 ((b ^^^ c) % M32) 7
  (a, b, c, d)

/-- Apply the quarter round to the four state words at indices
`(ia, ib, ic, id)` of a 16-word state. -/
def applyQR (s : List Nat) (ia ib ic id : Nat) : List Nat :=
  let r := qr (s.getD ia 0) (s.getD ib 0) (s.getD ic 0) (s.getD id 0)
  ((((s.set ia r.1).set ib r.2.1).set ic r.2.2.1).set id r.2.2.2)

/-- One ChaCha double round: four column quarter rounds followed by four
diagonal quarter rounds (`permute_block` loop body in `stChaCha.h`). -/
def doubleRound (s : List Nat) : List Nat :=
  let s := applyQR s 0 4 8 12
  let s := applyQR s 1 5 9 13
  let s := applyQR s 2 6 10 14
  let s := applyQR s 3 7 11 15
  let s := applyQR s 0 5 10 15
  let s := applyQR s 1 6 11 12
  let s := applyQR s 2 7 8 13
  let s := applyQR s 3 4 9 14
  s

/-- `n` ChaCha double rounds. -/
def doubleRounds : Nat → List Nat → List Nat
  | 0, s => s
  | n + 1, s => doubleRounds n (doubleRound s)

/-- The ChaCha block permutation of `stChaCha.h`: 10 double rounds on a
working copy, then word-wise addition of the original input mod 2^32.
This models the non-aliasing call `permute_block(out, in)` with
`out ≠ in`. -/
def permute_block (s : List Nat) : List Nat :=
  List.zipWith (fun x y => (x + y) % M32) (doubleRounds 10 s) s

/-- The final loop `for i: out[i] = x[i] + in[i]` of `permute_block` when the
output aliases the input: the sixteen stores are performed sequentially into
the very list that is also being read. -/
def addLoopInplace (x : List Nat) (s : List Nat) (n : Nat) : List Nat :=
  (List.range n).foldl (fun st i => st.set i ((x.getD i 0 + st.getD i 0) % M32)) s

/-- The in-place call `permute_block(s, s)`: copy `s` into the working array,
do the rounds there, then run the aliased addition loop over `s` itself. -/
def permute_block_inplace (s : List Nat) : List Nat :=
  addLoopInplace (doubleRounds 10 s) s 16

/-- The four ChaCha constants, "expand 32-byte k". -/
def chachaConstants : List Nat := [0x61707865, 0x3320646e, 0x79622d32, 0x6b206574]

/-- `build_state` from `stChaCha.h` (original Bernstein layout): constants in
words 0-3, the 256-bit key in words 4-11, the 64-bit block counter in words
12-13 (low half first) and the 64-bit nonce in words 14-15. -/
def build_state (key : List Nat) (nonce0 nonce1 : Nat) (counter : Nat) : List Nat :=
  chachaConstants ++ key.take 8 ++
    [counter % M32, (counter / M32) % M32, nonce0, nonce1]

/-! ### Errors

C++ exceptions thrown by the library: `std::invalid_argument` and
`std::runtime_error`. -/

/-- The two exception kinds thrown by the StonePass sources. -/
inductive StErr where
  | invalidArgument (msg : String)
  | runtimeError (msg : String)
deriving DecidableEq, Repr

/-- Whether an `Except` result is a success. -/
def isOkE {α : Type} (e : Except StErr α) : Bool :=
  match e with
  | .ok _ => true
  | .error _ => false

/-- Whether an `Except` result is an `std::invalid_argument` failure. -/
def isInvalidArg {α : Type} (e : Except StErr α) : Bool :=
  match e with
  | .error (.invalidArgument _) => true
  | .error (.runtimeError _) => false
  | .ok _ => false

/-! ### Bytes and words

All word/byte conversions in the sources are little-endian. -/

/-- The `n` little-endian bytes of `x`. -/
def toLEBytes (n x : Nat) : List Nat :=
  (List.range n).map (fun i => (x >>> (8 * i)) % 256)

/-- Pack a list of bytes into 32-bit little-endian words, four bytes per
word (the `u8`/`u32` views of `Block<N>` on a little-endian machine). -/
def bytesToWords32 : List Nat → List Nat
  | b0 :: b1 :: b2 :: b3 :: rest =>
      (b0 % 256 + 256 * (b1 % 256) + 65536 * (b2 % 256) + 16777216 * (b3 % 256))
        :: bytesToWords32 rest
  | [] => []
  | [b0] => [b0 % 256]
  | [b0, b1] => [b0 % 256 + 256 * (b1 % 256)]
  | [b0, b1, b2] => [b0 % 256 + 256 * (b1 % 256) + 65536 * (b2 % 256)]

/-- Unpack 32-bit words into little-endian bytes. -/
def wordsToBytes32 (ws : List Nat) : List Nat :=
  ws.flatMap (fun w => toLEBytes 4 w)

/-- The bytes of a C++ `std::string` (inputs of interest are ASCII, where
code points and bytes coincide). -/
def strBytes (s : String) : List Nat :=
  s.data.map Char.toNat

/-- Read the `u64[j]` view of a 16-word (64-byte) block: two consecutive
32-bit words, low word first. -/
def u64At (s : List Nat) (j : Nat) : Nat :=
  s.getD (2 * j) 0 + M32 * s.getD (2 * j + 1) 0

/-- XOR a 64-bit value into the `u64[j]` view of a 16-word block. -/
def xorU64At (s : List Nat) (j : Nat) (v : Nat) : List Nat :=
  let v := v % M64
  (s.set (2 * j) (s.getD (2 * j) 0 ^^^ (v % M32))).set (2 * j + 1)
    (s.getD (2 * j + 1) 0 ^^^ (v / M32))

/-- A 64-byte block of zeros (sixteen zero words). -/
def zeroBlock64 : List Nat := List.replicate 16 0

/-! ### `Compressor` (`stCompressor.h`)

The compressor state is one 64-byte block, viewed as 16 words.  Member
functions are modelled as state transformers; `finalize` is `const` in the
source, so its model returns the received state unchanged alongside the
digest. -/

/-- `Compressor::update`: XOR the 64-byte block into the state and apply the
ChaCha block permutation. -/
def compUpdate (state block : List Nat) : List Nat :=
  permute_block (List.zipWith (fun a b => a ^^^ b) state block)

/-- `Compressor::finalize(total_bytes)`: on a copy `h` of the state, XOR the
final-block flag `0x01` into word 0, XOR `rotl(total_bytes, 3)` into words
12-13 (low half then high half), apply the permutation once, and return the
result.  The method is `const`: the returned state is the state it was
called on. -/
def compFinalize (total_bytes : Nat) (state : List Nat) : List Nat × List Nat :=
  let h := state.set 0 (state.getD 0 0 ^^^ 0x01)
  let bit_len := rotl64 (total_bytes % M64) 3
  let h := h.set 12 (h.getD 12 0 ^^^ (bit_len % M32))
  let h := h.set 13 (h.getD 13 0 ^^^ (bit_len / M32))
  (permute_block h, state)

/-! ### `StoneHash`

`StoneHash.h` is not part of the sources provided; the sponge is modelled
from the spec (§4.2) on top of the `Compressor` of `stCompressor.h`. -/

/-- Modelled from the spec: the sponge state of `StoneHash` (`StoneHash.h` is
missing from the sources) — a 64-byte compressor state, a pending-byte
buffer of up to 63 bytes, and the total number of bytes absorbed. -/
structure StoneHashSt where
  comp : List Nat
  pending : List Nat
  total : Nat
deriving Repr

/-- A fresh `StoneHash`. -/
def hashInit : StoneHashSt := ⟨zeroBlock64, [], 0⟩

/-- Absorb as many full 64-byte chunks from `l` as possible into the
compressor state; returns the new state and the remaining (< 64) bytes.
The `fuel` dominates the number of chunks. -/
def absorbChunks : Nat → List Nat → List Nat → List Nat × List Nat
  | 0, st, l => (st, l)
  | fuel + 1, st, l =>
      if l.length < 64 then (st, l)
      else absorbChunks fuel (compUpdate st (bytesToWords32 (l.take 64))) (l.drop 64)

/-- Modelled from the spec: `StoneHash::update` — append the input to the
pending buffer, and whenever 64 bytes are available, XOR them into the state
and permute (via `Compressor::update`). -/
def hashUpdate (h : StoneHashSt) (bytes : List Nat) : StoneHashSt :=
  let l := h.pending ++ bytes
  let r := absorbChunks (l.length / 64 + 1) h.comp l
  ⟨r.1, r.2, h.total + bytes.length⟩

/-- Modelled from the spec: `StoneHash::finalize` — XOR the zero-padded
residual bytes into the state, then apply the `Compressor` finalization
(final-block flag, length injection, one permutation).  Returns the 64-byte
digest as 16 words. -/
def hashFinalize (h : StoneHashSt) : List Nat :=
  let padded := bytesToWords32 (h.pending ++ List.replicate (64 - h.pending.length) 0)
  let st := List.zipWith (fun a b => a ^^^ b) h.comp padded
  (compFinalize h.total st).1

/-- Modelled from the spec: `StoneHash::hash256` — the first 256 bits (8
words) of the 512-bit digest. -/
def hash256 (h : StoneHashSt) : List Nat :=
  (hashFinalize h).take 8

/-- `update` on a string argument. -/
def hashUpdateStr (h : StoneHashSt) (s : String) : StoneHashSt :=
  hashUpdate h (strBytes s)

/-! ### `StoneKey` (`StoneKey.h`)

The memory-hard KDF.  The arena is a list of 16-word blocks; the result is
a `Block32`, modelled as its 8 words. -/

/-- `GOLDEN_GAMMA`, the 64-bit golden-ratio constant. -/
def GOLDEN_GAMMA : Nat := 0x9e3779b97f4a7c15

/-- Phase 1 fill of one arena block:
`StoneHash("StoneHash::v2::fill" || context || i_as_8_bytes || (password if i == 0))`. -/
def fillBlock (password context : String) (i : Nat) : List Nat :=
  let h := hashUpdateStr hashInit "StoneHash::v2::fill"
  let h := if (strBytes context).length > 0 then hashUpdate h (strBytes context) else h
  let h := hashUpdate h (toLEBytes 8 i)
  let h := if i = 0 then hashUpdate h (strBytes password) else h
  hashFinalize h

/-- One butterfly pair update on blocks `a` and `b = a + span` of the arena:
`y ^= x ^ spread(mix)`, four column quarter rounds on `y`, `x ^= y`. -/
def butterflyPair (counter : Nat) (mem : List (List Nat)) (a b : Nat) :
    List (List Nat) :=
  let x := mem.getD a []
  let y := mem.getD b []
  let mix := counter ^^^ (((a <<< 32) ||| b) % M64)
  let y := (List.range 16).map
    (fun i => y.getD i 0 ^^^ x.getD i 0 ^^^ ((mix >>> (i * 4)) % M32))
  let y := applyQR y 0 4 8 12
  let y := applyQR y 1 5 9 13
  let y := applyQR y 2 6 10 14
  let y := applyQR y 3 7 11 15
  let x := (List.range 16).map (fun i => x.getD i 0 ^^^ y.getD i 0)
  (mem.set a x).set b y

/-- The butterfly sweep for one value of `span`. -/
def butterflySpan (counter : Nat) (n span : Nat) (mem : List (List Nat)) :
    List (List Nat) :=
  (List.range (n / (2 * span))).foldl
    (fun mem s =>
      (List.range span).foldl
        (fun mem k =>
          let a := s * (2 * span) + k
          butterflyPair counter mem a (a + span))
        mem)
    mem

/-- One full butterfly round: `span` sweeps over `1, 2, 4, …, n/2`. -/
def butterflyRound (counter : Nat) (m n : Nat) (mem : List (List Nat)) :
    List (List Nat) :=
  (List.range m).foldl (fun mem j => butterflySpan counter n (2 ^ j) mem) mem

/-- Phase 3 compression step for arena block `i`. -/
def compressStep (acc : List Nat) (blk : List Nat) (i : Nat) : List Nat :=
  let acc := List.zipWith (fun a b => a ^^^ b) acc blk
  let acc := xorU64At acc 0 i
  let acc := xorU64At acc 1 ((i <<< 32) % M64)
  let acc := xorU64At acc 2 ((i * GOLDEN_GAMMA) % M64)
  let acc := xorU64At acc 3 ((i * (GOLDEN_GAMMA >>> 13)) % M64)
  permute_block acc

/-- The body of `StoneKey` after validation: fill, `t_cost` butterfly
rounds, compression, and the final domain-separated extraction. -/
def stoneKeyBody (password context : String) (m_cost t_cost : Nat) : List Nat :=
  let n := 2 ^ m_cost
  let memory := (List.range n).map (fillBlock password context)
  let counter0 :=
    GOLDEN_GAMMA ^^^
      u64At (hashFinalize (hashUpdateStr (hashUpdateStr hashInit
        "StoneHash::v2::counter_seed") password)) 0
  let mixed := (List.range t_cost).foldl
    (fun st _ =>
      let counter := (st.1 + GOLDEN_GAMMA) % M64
      (counter, butterflyRound counter m_cost n st.2))
    (counter0, memory)
  let acc := (List.range n).foldl
    (fun acc i => compressStep acc (mixed.2.getD i []) i) zeroBlock64
  let acc := permute_block acc
  let out := hashUpdateStr hashInit "StoneKey::v2::final"
  let out := hashUpdate out (strBytes password)
  let out := hashUpdate out (strBytes context)
  let out := hashUpdate out (wordsToBytes32 acc)
  hash256 out

/-- `StoneKey(password, context, m_cost, t_cost)` from `StoneKey.h`:
validation (`m_cost > 26`, `t_cost == 0`, empty password) then the
derivation.  The result models the returned `Block32` as its 8 words. -/
def StoneKey (password context : String) (m_cost t_cost : Nat) :
    Except StErr (List Nat) :=
  if m_cost > 26 then .error (.invalidArgument "StoneKey: m_cost too high (max 26: 4 GiB)")
  else if t_cost = 0 then .error (.invalidArgument "StoneKey: t_cost must be >= 1")
  else if password.isEmpty then .error (.invalidArgument "StoneKey: password is empty")
  else .ok (stoneKeyBody password context m_cost t_cost)

/-! ### `StoneRNG` (`StoneRNG.h`)

The generator state: 256-bit key (8 words), 64-bit nonce (two words), 64-bit
block counter, 64-byte keystream buffer (16 words, read through its `u64`
view), and word index `0..8`.  Every member function that can throw is
modelled as `RNG → Except StErr α × RNG`; on a throw the returned state
carries the mutations already performed, as the C++ object would. -/

/-- The `StoneRNG` state. -/
structure RNG where
  key : List Nat
  nonce0 : Nat
  nonce1 : Nat
  counter : Nat
  buffer : List Nat
  wordIndex : Nat
deriving Repr, DecidableEq

/-- `StoneRNG::refill_buffer`: permute `build_state(key, nonce, counter)`
into the buffer, reset the word index, increment the counter; if the counter
wraps to 0, throw (after all those mutations, as the C++ code does). -/
def refill (s : RNG) : Except StErr Unit × RNG :=
  let buf := permute_block (build_state s.key s.nonce0 s.nonce1 s.counter)
  let c := (s.counter + 1) % M64
  let s := { s with buffer := buf, wordIndex := 0, counter := c }
  if c = 0 then (.error (.runtimeError "StoneRNG: key/nonce pair exhausted"), s)
  else (.ok (), s)

/-- `StoneRNG::operator()`: refill when the buffer is exhausted, then return
`buffer.u64[word_index++]`. -/
def draw (s : RNG) : Except StErr Nat × RNG :=
  if s.wordIndex ≥ 8 then
    match refill s with
    | (.error e, s) => (.error e, s)
    | (.ok _, s) => (.ok (u64At s.buffer s.wordIndex), { s with wordIndex := s.wordIndex + 1 })
  else (.ok (u64At s.buffer s.wordIndex), { s with wordIndex := s.wordIndex + 1 })

/-- Words still obtainable before the counter would wrap: a termination
measure for the rejection-sampling loop.  Each successful `draw` strictly
decreases it. -/
def rngMeasure (s : RNG) : Nat :=
  8 * (M64 - s.counter % M64) + (8 - s.wordIndex)

/-- The rejection loop of `StoneRNG::unbiased`: draw until a word is `≤
limit`, then return `lo + (value % range)`.  Terminates because each
successful draw decreases `rngMeasure` and a failed draw ends the loop with
the exception. -/
def unbiasedLoop (lo range limit : Nat) (s : RNG) : Except StErr Nat × RNG :=
  match h : draw s with
  | (.error e, s') => (.error e, s')
  | (.ok v, s') =>
      if v > limit then unbiasedLoop lo range limit s'
      else (.ok (lo + v % range), s')
termination_by rngMeasure s
decreasing_by
  have hM : 0 < M64 := by simp [M64]
  unfold draw at h
  by_cases hw : s.wordIndex ≥ 8
  · simp only [hw, if_pos] at h
    unfold refill at h
    by_cases hc : (s.counter + 1) % M64 = 0
    · simp [hc] at h
    · simp only [hc, if_neg, if_false] at h
      simp only [Prod.mk.injEq] at h
      obtain ⟨-, ht⟩ := h
      subst ht
      simp only [rngMeasure]
      have hr : s.counter % M64 < M64 := Nat.mod_lt _ hM
      have h1 : (s.counter + 1) % M64 = (s.counter % M64 + 1) % M64 := by
        conv_lhs => rw [Nat.add_mod]
        simp
      by_cases h2 : s.counter % M64 + 1 = M64
      · rw [h1, h2, Nat.mod_self] at hc
        exact absurd rfl hc
      · have h3 : s.counter % M64 + 1 < M64 := lt_of_le_of_ne hr h2
        rw [h1, Nat.mod_eq_of_lt h3, Nat.mod_eq_of_lt h3]
        omega
  · simp only [hw, if_neg, if_false] at h
    simp only [Prod.mk.injEq] at h
    obtain ⟨-, ht⟩ := h
    subst ht
    simp only [rngMeasure]
    omega

/-- The rejection threshold of `StoneRNG::unbiased`:
`limit = max() - (max() % range)`; values `> limit` are rejected. -/
def unbiasedLimit (range : Nat) : Nat := MAX64 - MAX64 % range

/-- `StoneRNG::unbiased(lo, hi)`: swap transposed arguments, short-circuit a
zero range and the full 64-bit range, otherwise rejection-sample with
`range = hi - lo + 1` and `limit = MAX64 - (MAX64 % range)`. -/
def unbiased (lo hi : Nat) (s : RNG) : Except StErr Nat × RNG :=
  let l := min lo hi
  let h := max lo hi
  if l = h then (.ok l, s)
  else if h - l = MAX64 then draw s
  else
    let range := h - l + 1
    unbiasedLoop l range (unbiasedLimit range) s

/-- The number of 64-bit keystream words that the rejection loop of
`unbiased` accepts and maps to residue `r`: words `v < 2^64` with
`v ≤ unbiasedLimit range` and `v % range = r` (each accepted `v` yields the
result `lo + v % range`). -/
def acceptCount (range r : Nat) : Nat :=
  ((Finset.range M64).filter (fun v => v ≤ unbiasedLimit range ∧ v % range = r)).card

/-- `StoneRNG::discard(n)`: consume the rest of the buffer, skip whole
blocks by advancing the counter (checking for 64-bit overflow), and refill
with `n % 8` words consumed when a partial block is needed. -/
def discard (n : Nat) (s : RNG) : Except StErr Unit × RNG :=
  if n = 0 then (.ok (), s)
  else
    let remaining := 8 - s.wordIndex
    if n < remaining then (.ok (), { s with wordIndex := s.wordIndex + n })
    else
      let n := n - remaining
      let s := { s with wordIndex := 8 }
      let full_blocks := n / 8
      let remainder := n % 8
      if s.counter > MAX64 - full_blocks then
        (.error (.runtimeError "StoneRNG: block_counter overflow during discard"), s)
      else
        let s := { s with counter := (s.counter + full_blocks) % M64 }
        if remainder ≠ 0 then
          match refill s with
          | (.error e, s') => (.error e, s')
          | (.ok _, s') => (.ok (), { s' with wordIndex := remainder })
        else (.ok (), s)

/-- The explicit key/nonce/counter constructor: fields are set and
`refill_buffer` primes the pump. -/
def mkRNG (key : List Nat) (n0 n1 c : Nat) : Except StErr Unit × RNG :=
  refill { key := key, nonce0 := n0, nonce1 := n1, counter := c % M64,
           buffer := zeroBlock64, wordIndex := 8 }

/-- The `Block32` seed constructor: zero-extend the 32-byte seed to 64
bytes, self-permute, take words 0-7 as key and words 8-9 as nonce, start
the counter at 0, and prime the pump. -/
def mkRNGfromBlock32 (b32 : List Nat) : Except StErr Unit × RNG :=
  let temp := permute_block (b32.take 8 ++ List.replicate 8 0)
  refill { key := temp.take 8, nonce0 := temp.getD 8 0, nonce1 := temp.getD 9 0,
           counter := 0, buffer := zeroBlock64, wordIndex := 8 }

/-- `StoneRNG::reseed`: new key and nonce, counter 0, refill. -/
def reseed (k : List Nat) (n0 n1 : Nat) (s : RNG) : Except StErr Unit × RNG :=
  refill { s with key := k, nonce0 := n0, nonce1 := n1, counter := 0 }

/-- `operator==` on `StoneRNG`: constant-time key comparison (OR of word
XORs), then nonce, block counter and word index.  The buffer is not
compared. -/
def rngEqB (a b : RNG) : Bool :=
  let key_diff := (List.range 8).foldl
    (fun d i => d ||| (a.key.getD i 0 ^^^ b.key.getD i 0)) 0
  key_diff == 0 && a.nonce0 == b.nonce0 && a.nonce1 == b.nonce1 &&
    a.counter == b.counter && a.wordIndex == b.wordIndex

/-! ### `generate_password` (`StonePass.h`) -/

/-- The default character sets (`STONEPASS_*` in `StonePass.h`). -/
def STONEPASS_UPPERCASE : String := "ABCDEFGHJKLMNPQRSTUVWXYZ"

/-- Default lowercase set. -/
def STONEPASS_LOWERCASE : String := "abcdefghijkmnpqrstuvwxyz"

/-- Default digit set. -/
def STONEPASS_DIGITS : String := "23456789"

/-- Default symbol set. -/
def STONEPASS_SYMBOLS : String := "@#$%&*()[]\x7b\x7d;:,.?"

/-- A one-character string holding the NUL byte. -/
def nulStr : String := String.singleton (Char.ofNat 0)

/-- `"1"` or `"0"` for a policy flag. -/
def flagStr (b : Bool) : String := if b then "1" else "0"

/-- The context string `generate_password` actually builds.  C++ semantics
matter here: `std::string("StonePassword_v1.0\0")` stops at the embedded
NUL, and appending the literals `"\0upper:"`, `"\0lower:"`, `"\0digits:"`,
`"\0symbols:"` through `operator+(std::string, const char*)` appends nothing
because `strlen` of each is 0.  Only the bare `'\0'` char appends a NUL. -/
def buildContext (username site_name : String) (password_length password_version : Nat)
    (bU bL bD bS : Bool) : String :=
  "StonePassword_v1.0" ++ toString password_version ++ nulStr ++
    username ++ nulStr ++ site_name ++ nulStr ++
    "len:" ++ toString password_length ++
    flagStr bU ++ flagStr bL ++ flagStr bD ++ flagStr bS

/-- The context string as the spec describes it:
`"StonePassword_v1.0\0" V "\0" U "\0" S "\0" "len:" L "\0upper:" b "\0lower:" b
"\0digits:" b "\0symbols:" b`. -/
def specContext (username site_name : String) (password_length password_version : Nat)
    (bU bL bD bS : Bool) : String :=
  "StonePassword_v1.0" ++ nulStr ++ toString password_version ++ nulStr ++
    username ++ nulStr ++ site_name ++ nulStr ++
    "len:" ++ toString password_length ++
    nulStr ++ "upper:" ++ flagStr bU ++ nulStr ++ "lower:" ++ flagStr bL ++
    nulStr ++ "digits:" ++ flagStr bD ++ nulStr ++ "symbols:" ++ flagStr bS

/-- The `draw` lambda of `generate_password`:
`characters[rng.unbiased(0, characters.size() - 1)]`.  The `size() - 1` is
`size_t` arithmetic: a C++ `size()` is always below `2^64`, so it equals
`size - 1` for a non-empty set and wraps to `2^64 - 1` on an empty one.
Indexing a `std::string_view` out of bounds is undefined behaviour in C++
and is modelled as a runtime failure. -/
def drawChar (chars : String) (s : RNG) : Except StErr Char × RNG :=
  match unbiased 0 (if chars.data.length = 0 then MAX64 else chars.data.length - 1) s with
  | (.error e, s') => (.error e, s')
  | (.ok idx, s') =>
      match chars.data.get? idx with
      | some c => (.ok c, s')
      | none => (.error (.runtimeError "character index out of range"), s')

/-- Draw one character and append it to the accumulator. -/
def drawAppend (chars : String) (acc : List Char) (s : RNG) :
    Except StErr (List Char) × RNG :=
  match drawChar chars s with
  | (.error e, s') => (.error e, s')
  | (.ok c, s') => (.ok (acc ++ [c]), s')

/-- Draw if the category is required, otherwise keep the accumulator. -/
def drawIf (b : Bool) (chars : String) (acc : List Char) (s : RNG) :
    Except StErr (List Char) × RNG :=
  if b then drawAppend chars acc s else (.ok acc, s)

/-- The fill loop `while (password.size() < password_length)`: `k` is the
number of characters still missing (each iteration appends exactly one). -/
def fillChars (chars : String) : Nat → List Char → RNG →
    Except StErr (List Char) × RNG
  | 0, acc, s => (.ok acc, s)
  | k + 1, acc, s =>
      match drawChar chars s with
      | (.error e, s') => (.error e, s')
      | (.ok c, s') => fillChars chars k (acc ++ [c]) s'
termination_by k => k

/-- `std::swap(password[i], password[j])`. -/
def swapL (l : List Char) (i j : Nat) : List Char :=
  let vi := l.getD i (Char.ofNat 0)
  let vj := l.getD j (Char.ofNat 0)
  (l.set i vj).set j vi

/-- The Fisher-Yates loop `for (i = L-1; i > 0; --i) swap(i, unbiased(0, i))`;
the argument is the current value of `i`. -/
def shuffleGo : Nat → List Char → RNG → Except StErr (List Char) × RNG
  | 0, l, s => (.ok l, s)
  | i + 1, l, s =>
      match unbiased 0 (i + 1) s with
      | (.error e, s') => (.error e, s')
      | (.ok j, s') => shuffleGo i (swapL l (i + 1) j) s'
termination_by i => i

/-- The pool `all_chars`: the concatenation of exactly the required
category sets, in the order upper, lower, digits, symbols. -/
def allChars (cu cl cd cs : String) (bU bL bD bS : Bool) : String :=
  (if bU then cu else "") ++ (if bL then cl else "") ++
    (if bD then cd else "") ++ (if bS then cs else "")

/-- The character-drawing and shuffling pipeline of `generate_password`,
starting from an already seeded generator. -/
def composeBody (password_length : Nat)
    (uppercase lowercase digits symbols all_chars : String)
    (bU bL bD bS : Bool) (rng : RNG) : Except StErr String × RNG :=
  match drawIf bU uppercase [] rng with
  | (.error e, s) => (.error e, s)
  | (.ok acc, s) =>
    match drawIf bL lowercase acc s with
    | (.error e, s) => (.error e, s)
    | (.ok acc, s) =>
      match drawIf bD digits acc s with
      | (.error e, s) => (.error e, s)
      | (.ok acc, s) =>
        match drawIf bS symbols acc s with
        | (.error e, s) => (.error e, s)
        | (.ok acc, s) =>
          match fillChars all_chars (password_length - acc.length) acc s with
          | (.error e, s) => (.error e, s)
          | (.ok full, s) =>
            match shuffleGo (password_length - 1) full s with
            | (.error e, s) => (.error e, s)
            | (.ok shuffled, s) => (.ok (String.mk shuffled), s)

/-- `generate_password` from `StonePass.h`: validation, context
construction, `StoneKey` with default costs (m=20, t=3), seeding a
`StoneRNG` from the derived key, category draws, fill, Fisher-Yates
shuffle. -/
def generate_password (username master_password site_name : String)
    (password_length password_version : Nat)
    (uppercase_chars lowercase_chars digit_chars symbol_chars : String)
    (require_uppercase require_lowercase require_digits require_symbols : Bool) :
    Except StErr String :=
  if username.isEmpty then .error (.invalidArgument "Username cannot be empty")
  else if master_password.isEmpty then .error (.invalidArgument "Master password cannot be empty")
  else if site_name.isEmpty then .error (.invalidArgument "Site name cannot be empty")
  else if password_length < 6 ∨ password_length > 128 then
    .error (.invalidArgument "password_length must be 6-128")
  else if password_version < 1 then .error (.invalidArgument "Password version must be >= 1")
  else if require_uppercase ∧ uppercase_chars.isEmpty then
    .error (.invalidArgument "Invalid config: cannot require uppercase letters if none are supplied.")
  else if require_lowercase ∧ lowercase_chars.isEmpty then
    .error (.invalidArgument "Invalid config: cannot require lowercase letters if none are supplied.")
  else if require_digits ∧ digit_chars.isEmpty then
    .error (.invalidArgument "Invalid config: cannot require digits if none are supplied.")
  else if require_symbols ∧ symbol_chars.isEmpty then
    .error (.invalidArgument "Invalid config: cannot require symbols if none are supplied.")
  else
    if password_length <
        (if require_uppercase then 1 else 0) + (if require_lowercase then 1 else 0) +
          (if require_digits then 1 else 0) + (if require_symbols then 1 else 0) then
      .error (.invalidArgument "password_length too short for required categories")
    else
      match StoneKey master_password
        (buildContext username site_name password_length password_version
          require_uppercase require_lowercase require_digits require_symbols) 20 3 with
      | .error e => .error e
      | .ok hash1 =>
        match mkRNGfromBlock32 hash1 with
        | (.error e, _) => .error e
        | (.ok _, rng) =>
          (composeBody password_length uppercase_chars lowercase_chars digit_chars
            symbol_chars
            (allChars uppercase_chars lowercase_chars digit_chars symbol_chars
              require_uppercase require_lowercase require_digits require_symbols)
            require_uppercase require_lowercase require_digits require_symbols rng).1

/-! ### Definitions used to state the claims -/

/-- A sequence of `n` keystream draws: the list of per-draw results (each
either a word or the thrown exception, in order) and the final state.  The
C++ object survives a thrown exception, so the sequence continues on the
mutated state, as a caller that catches the exception would observe. -/
def drawSeq : Nat → RNG → List (Except StErr Nat) × RNG
  | 0, s => ([], s)
  | k + 1, s =>
      let r := draw s
      let rest := drawSeq k r.2
      (r.1 :: rest.1, rest.2)

/-- A generator built by the public key/nonce/counter constructor with the
all-zero key and nonce and initial counter `2^64 - 2`: one block away from
the counter wrap. -/
def nearWrapRNG : RNG := (mkRNG (List.replicate 8 0) 0 0 (M64 - 2)).2

/-- The returned key of `StoneKey` is a 32-byte block (8 words) whenever
the call succeeds. -/
def keyLenOk (e : Except StErr (List Nat)) : Prop :=
  match e with
  | .ok k => k.length = 8
  | .error _ => True

/-- Policy conformance of a `generate_password` result: when a password is
returned it has the requested length, contains at least one character from
each required category set, and consists only of characters of the union
`allChars` of the required sets. -/
def policyConforms (L : Nat) (cu cl cd cs : String) (bU bL bD bS : Bool) :
    Except StErr String → Prop
  | .error _ => True
  | .ok pwd =>
      pwd.length = L ∧
      (bU = true → ∃ c, c ∈ pwd.data ∧ c ∈ cu.data) ∧
      (bL = true → ∃ c, c ∈ pwd.data ∧ c ∈ cl.data) ∧
      (bD = true → ∃ c, c ∈ pwd.data ∧ c ∈ cd.data) ∧
      (bS = true → ∃ c, c ∈ pwd.data ∧ c ∈ cs.data) ∧
      (∀ c, c ∈ pwd.data → c ∈ (allChars cu cl cd cs bU bL bD bS).data)

/-- Structural invariant of the sponge state: 16-word compressor state and
fewer than 64 pending bytes. -/
def HInv (h : StoneHashSt) : Prop :=
  h.comp.length = 16 ∧ h.pending.length < 64

/-- The operations of the public `StoneRNG` interface that produce or skip
output. -/
inductive RNGOp where
  | drawOp : RNGOp
  | unbiasedOp (lo hi : Nat) : RNGOp
  | discardOp (n : Nat) : RNGOp
deriving Repr, DecidableEq

/-- Run one operation; `discard` reports `0` on success so that operations
have a uniform observable result. -/
def stepOp : RNGOp → RNG → Except StErr Nat × RNG
  | .drawOp, s => draw s
  | .unbiasedOp lo hi, s => unbiased lo hi s
  | .discardOp n, s =>
      match discard n s with
      | (.ok _, s') => (.ok 0, s')
      | (.error e, s') => (.error e, s')

/-- The observable outputs of a sequence of operations (continuing on the
mutated state after a thrown exception, as the surviving C++ object would). -/
def runOps : List RNGOp → RNG → List (Except StErr Nat)
  | [], _ => []
  | op :: ops, s =>
      let r := stepOp op s
      r.1 :: runOps ops r.2

/-- States that agree on everything `operator==` compares; the buffers are
required to agree only while unread words remain. -/
def rngRel (a b : RNG) : Prop :=
  a.key = b.key ∧ a.nonce0 = b.nonce0 ∧ a.nonce1 = b.nonce1 ∧
    a.counter = b.counter ∧ a.wordIndex = b.wordIndex ∧
    (a.wordIndex < 8 → a.buffer = b.buffer)

/-- Invariant of every `StoneRNG` state reachable through the public
interface: 8-word key, word index at most 8, reduced counter, and — while
unread words remain — a buffer that is exactly the keystream block of the
previous counter value. -/
def RNGInv (s : RNG) : Prop :=
  s.key.length = 8 ∧ s.wordIndex ≤ 8 ∧ s.counter < M64 ∧
    (s.wordIndex < 8 →
      s.buffer = permute_block (build_state s.key s.nonce0 s.nonce1
        ((s.counter + MAX64) % M64)))

/-- `discard(n)` followed by one draw. -/
def discardThenDraw (n : Nat) (s : RNG) : Except StErr Nat × RNG :=
  match discard n s with
  | (.error e, s') => (.error e, s')
  | (.ok _, s') => draw s'

/-- `n` draws (`n ≥ 1`), keeping the last result; a thrown exception stops
the sequence. -/
def drawsLast : Nat → RNG → Except StErr Nat × RNG
  | 0, s => (.error (.runtimeError "no draw requested"), s)
  | 1, s => draw s
  | n + 2, s =>
      match draw s with
      | (.error e, s') => (.error e, s')
      | (.ok _, s') => drawsLast (n + 1) s'
termination_by n => n

/-- A concrete generator state reachable through the public interface: the
explicit-constructor `StoneRNG` with an all-zero key, zero nonce and initial
counter 0, after its priming `refill_buffer`. -/
def c7state : RNG := (mkRNG (List.replicate 8 0) 0 0 0).2

/-! ## Supporting lemmas -/

theorem applyQR_length (s : List Nat) (ia ib ic id : Nat) :
    (applyQR s ia ib ic id).length = s.length := by
  simp [applyQR]

theorem doubleRound_length (s : List Nat) : (doubleRound s).length = s.length := by
  simp [doubleRound, applyQR_length]

theorem doubleRounds_length (n : Nat) (s : List Nat) :
    (doubleRounds n s).length = s.length := by
  induction n generalizing s with
  | zero => rfl
  | succ n ih => rw [doubleRounds, ih, doubleRound_length]

theorem permute_block_length (s : List Nat) : (permute_block s).length = s.length := by
  simp [permute_block, doubleRounds_length]

theorem bytesToWords32_length :
    ∀ l : List Nat, (bytesToWords32 l).length = (l.length + 3) / 4
  | [] => rfl
  | [_] => by simp [bytesToWords32]
  | [_, _] => by simp [bytesToWords32]
  | [_, _, _] => by simp [bytesToWords32]
  | _ :: _ :: _ :: _ :: rest => by
      simp only [bytesToWords32, List.length_cons]
      rw [bytesToWords32_length rest]
      omega

theorem compUpdate_length (st blk : List Nat) (h : st.length = 16)
    (hb : blk.length = 16) : (compUpdate st blk).length = 16 := by
  simp [compUpdate, permute_block_length, h, hb]

theorem absorbChunks_fst_length :
    ∀ (fuel : Nat) (st l : List Nat), st.length = 16 →
      ((absorbChunks fuel st l).1).length = 16
  | 0, _, _, h => h
  | fuel + 1, st, l, h => by
      rw [absorbChunks]
      split
      · exact h
      · next hlen =>
        apply absorbChunks_fst_length
        apply compUpdate_length _ _ h
        rw [bytesToWords32_length, List.length_take]
        omega

theorem absorbChunks_snd_lt :
    ∀ (fuel : Nat) (st l : List Nat), l.length < 64 * fuel →
      ((absorbChunks fuel st l).2).length < 64
  | 0, _, _, h => by omega
  | fuel + 1, st, l, h => by
      rw [absorbChunks]
      split
      · next hlt => exact hlt
      · next hge =>
        apply absorbChunks_snd_lt
        rw [List.length_drop]
        omega

theorem HInv_init : HInv hashInit := by
  constructor <;> simp [hashInit, zeroBlock64]

theorem HInv_update (h : StoneHashSt) (b : List Nat) (hh : HInv h) :
    HInv (hashUpdate h b) := by
  obtain ⟨h1, h2⟩ := hh
  refine ⟨absorbChunks_fst_length _ _ _ h1, ?_⟩
  apply absorbChunks_snd_lt
  have := Nat.div_add_mod (h.pending ++ b).length 64
  omega

theorem HInv_updateStr (h : StoneHashSt) (s : String) (hh : HInv h) :
    HInv (hashUpdateStr h s) := HInv_update h (strBytes s) hh

theorem hashFinalize_length (h : StoneHashSt) (hh : HInv h) :
    (hashFinalize h).length = 16 := by
  obtain ⟨h1, h2⟩ := hh
  simp only [hashFinalize, compFinalize, permute_block_length, List.length_set,
    List.length_zipWith, bytesToWords32_length, List.length_append,
    List.length_replicate, h1]
  omega

theorem hash256_length (h : StoneHashSt) (hh : HInv h) : (hash256 h).length = 8 := by
  simp [hash256, hashFinalize_length h hh]

theorem stoneKeyBody_length (p c : String) (m t : Nat) :
    (stoneKeyBody p c m t).length = 8 := by
  simp only [stoneKeyBody]
  exact hash256_length _ (HInv_update _ _ (HInv_update _ _ (HInv_update _ _
    (HInv_updateStr _ _ HInv_init))))

theorem card_filter_mod_two_zero (N : Nat) :
    ((Finset.range N).filter (fun v => v % 2 = 0)).card = (N + 1) / 2 := by
  induction N with
  | zero => simp
  | succ n ih =>
      rw [Finset.range_succ, Finset.filter_insert]
      by_cases h : n % 2 = 0
      · rw [if_pos h, Finset.card_insert_of_not_mem (by simp), ih]
        omega
      · rw [if_neg h, ih]
        omega

theorem card_filter_mod_two_one (N : Nat) :
    ((Finset.range N).filter (fun v => v % 2 = 1)).card = N / 2 := by
  induction N with
  | zero => simp
  | succ n ih =>
      rw [Finset.range_succ, Finset.filter_insert]
      by_cases h : n % 2 = 1
      · rw [if_pos h, Finset.card_insert_of_not_mem (by simp), ih]
        omega
      · rw [if_neg h, ih]
        omega

theorem set_append_length {α : Type} (l l' : List α) (v : α) :
    (l ++ l').set l.length v = l ++ l'.set 0 v := by
  induction l with
  | nil => simp
  | cons a t ih => simp [List.set, ih]

theorem set_append_eq {α : Type} (A B : List α) (n : Nat) (v : α)
    (h : A.length = n) : (A ++ B).set n v = A ++ B.set 0 v := by
  subst h
  exact set_append_length A B v

theorem addLoopInplace_spec :
    ∀ (n : Nat) (x s : List Nat), n ≤ x.length → n ≤ s.length →
      addLoopInplace x s n =
        (List.zipWith (fun a b => (a + b) % M32) x s).take n ++ s.drop n := by
  intro n
  induction n with
  | zero => intro x s _ _; simp [addLoopInplace]
  | succ n ih =>
      intro x s hx hs
      have hxn : n < x.length := by omega
      have hsn : n < s.length := by omega
      have hZ : (List.zipWith (fun a b => (a + b) % M32) x s).length =
          min x.length s.length := by simp
      unfold addLoopInplace
      rw [List.range_succ, List.foldl_append]
      have hfold :
          (List.range n).foldl
            (fun st i => st.set i ((x.getD i 0 + st.getD i 0) % M32)) s =
          (List.zipWith (fun a b => (a + b) % M32) x s).take n ++ s.drop n := by
        have := ih x s (by omega) (by omega)
        simpa [addLoopInplace] using this
      rw [hfold]
      simp only [List.foldl_cons, List.foldl_nil]
      have hdrop : s.drop n = s[n] :: s.drop (n + 1) :=
        List.drop_eq_getElem_cons hsn
      have htklen : ((List.zipWith (fun a b => (a + b) % M32) x s).take n).length = n := by
        rw [List.length_take, hZ]
        omega
      have hgetD :
          ((List.zipWith (fun a b => (a + b) % M32) x s).take n ++ s.drop n).getD n 0 =
            s[n] := by
        rw [List.getD_append_right _ _ _ _ (by omega), htklen, Nat.sub_self, hdrop]
        rfl
      rw [hgetD]
      rw [set_append_eq _ _ _ _ htklen, hdrop]
      have htake : (List.zipWith (fun a b => (a + b) % M32) x s).take (n + 1) =
          (List.zipWith (fun a b => (a + b) % M32) x s).take n ++
            [(x[n] + s[n]) % M32] := by
        rw [List.take_succ]
        have hn : n < (List.zipWith (fun a b => (a + b) % M32) x s).length := by
          rw [hZ]; omega
        rw [List.getElem?_eq_getElem hn]
        simp [List.getElem_zipWith]
      rw [htake, List.append_assoc]
      have hxg : x.getD n 0 = x[n] := List.getD_eq_getElem x 0 hxn
      rw [hxg]
      rfl

theorem draw_err_runtime (s : RNG) (e : StErr) (t : RNG)
    (h : draw s = (.error e, t)) : ∃ m, e = .runtimeError m := by
  unfold draw at h
  by_cases hw : s.wordIndex ≥ 8
  · simp only [hw, if_pos] at h
    unfold refill at h
    by_cases hc : (s.counter + 1) % M64 = 0
    · simp only [hc, if_pos] at h
      simp only [Prod.mk.injEq, Except.error.injEq] at h
      exact ⟨_, h.1.symm⟩
    · simp [hc] at h
  · simp [hw] at h

theorem drawChar_empty_err (s : RNG) :
    ∃ m s', drawChar "" s = (.error (.runtimeError m), s') := by
  unfold drawChar
  have hd : ("" : String).data = [] := rfl
  rw [hd]
  simp only [List.length_nil, if_true]
  have hu : unbiased 0 MAX64 s = draw s := by
    unfold unbiased
    rw [if_neg (by norm_num [MAX64, M64]), if_pos (by omega)]
  rw [hu]
  match h : draw s with
  | (.error e, s') =>
      obtain ⟨m, rfl⟩ := draw_err_runtime s e s' h
      exact ⟨m, s', rfl⟩
  | (.ok v, s') =>
      refine ⟨"character index out of range", s', ?_⟩
      simp

theorem fillChars_succ (chars : String) (k : Nat) (acc : List Char) (s : RNG) :
    fillChars chars (k + 1) acc s =
      match drawChar chars s with
      | (.error e, s') => (.error e, s')
      | (.ok c, s') => fillChars chars k (acc ++ [c]) s' := by
  rw [fillChars.eq_def]

theorem fillChars_empty_err (k : Nat) (acc : List Char) (s : RNG) :
    ∃ m s', fillChars "" (k + 1) acc s = (.error (.runtimeError m), s') := by
  obtain ⟨m, s', h⟩ := drawChar_empty_err s
  refine ⟨m, s', ?_⟩
  rw [fillChars_succ, h]

theorem composeBody_all_false (L : Nat) (cu cl cd cs : String) (rng : RNG)
    (hL : 1 ≤ L) :
    ∃ m s', composeBody L cu cl cd cs "" false false false false rng =
      (.error (.runtimeError m), s') := by
  obtain ⟨k, hk⟩ : ∃ k, L = k + 1 := ⟨L - 1, by omega⟩
  subst hk
  obtain ⟨m, s', h⟩ := fillChars_empty_err k [] rng
  refine ⟨m, s', ?_⟩
  unfold composeBody drawIf
  simp only [if_neg (by simp : ¬(false = true))]
  simp only [List.length_nil, Nat.sub_zero]
  rw [h]

theorem gp_all_false_reduce :
    generate_password "a" "b" "c" 6 1 STONEPASS_UPPERCASE STONEPASS_LOWERCASE
      STONEPASS_DIGITS STONEPASS_SYMBOLS false false false false =
    (composeBody 6 STONEPASS_UPPERCASE STONEPASS_LOWERCASE STONEPASS_DIGITS
      STONEPASS_SYMBOLS "" false false false false
      (mkRNGfromBlock32 (stoneKeyBody "b"
        (buildContext "a" "c" 6 1 false false false false) 20 3)).2).1 := rfl

theorem draw_measure_lt (s : RNG) (v : Nat) (t : RNG)
    (h : draw s = (.ok v, t)) : rngMeasure t < rngMeasure s := by
  have hM : 0 < M64 := by simp [M64]
  unfold draw at h
  by_cases hw : s.wordIndex ≥ 8
  · simp only [hw, if_pos] at h
    unfold refill at h
    by_cases hc : (s.counter + 1) % M64 = 0
    · simp [hc] at h
    · simp only [hc, if_neg, if_false] at h
      simp only [Prod.mk.injEq] at h
      obtain ⟨-, ht⟩ := h
      subst ht
      simp only [rngMeasure]
      have hr : s.counter % M64 < M64 := Nat.mod_lt _ hM
      have h1 : (s.counter + 1) % M64 = (s.counter % M64 + 1) % M64 := by
        conv_lhs => rw [Nat.add_mod]
        simp
      by_cases h2 : s.counter % M64 + 1 = M64
      · rw [h1, h2, Nat.mod_self] at hc
        exact absurd rfl hc
      · have h3 : s.counter % M64 + 1 < M64 := lt_of_le_of_ne hr h2
        rw [h1, Nat.mod_eq_of_lt h3, Nat.mod_eq_of_lt h3]
        omega
  · simp only [hw, if_neg, if_false] at h
    simp only [Prod.mk.injEq] at h
    obtain ⟨-, ht⟩ := h
    subst ht
    simp only [rngMeasure]
    omega

theorem unbiasedLoop_ok_val (lo range limit : Nat) (s : RNG) :
    ∀ r s', unbiasedLoop lo range limit s = (.ok r, s') →
      ∃ v, v ≤ limit ∧ r = lo + v % range := by
  intro r s' h
  rw [unbiasedLoop.eq_def] at h
  split at h
  · simp at h
  · next v s1 hd =>
      split at h
      · exact unbiasedLoop_ok_val lo range limit s1 r s' h
      · next hv =>
          simp only [Prod.mk.injEq, Except.ok.injEq] at h
          exact ⟨v, by omega, h.1.symm⟩
termination_by rngMeasure s
decreasing_by exact draw_measure_lt _ _ _ (by assumption)

theorem unbiased_ok_bounds (lo hi : Nat) (s : RNG) (j : Nat) (s' : RNG)
    (hle : lo ≤ hi) (hr : hi - lo ≠ MAX64)
    (h : unbiased lo hi s = (.ok j, s')) : lo ≤ j ∧ j ≤ hi := by
  unfold unbiased at h
  rw [Nat.min_eq_left hle, Nat.max_eq_right hle] at h
  by_cases heq : lo = hi
  · rw [if_pos heq] at h
    simp only [Prod.mk.injEq, Except.ok.injEq] at h
    omega
  · rw [if_neg heq, if_neg hr] at h
    obtain ⟨v, hv, hval⟩ := unbiasedLoop_ok_val _ _ _ _ _ _ h
    have : v % (hi - lo + 1) < hi - lo + 1 := Nat.mod_lt _ (by omega)
    omega

theorem drawChar_ok_mem (chars : String) (s : RNG) (c : Char) (s' : RNG)
    (h : drawChar chars s = (.ok c, s')) : c ∈ chars.data := by
  unfold drawChar at h
  split at h
  · simp at h
  · next idx s1 hu =>
      split at h
      · next c' hg =>
          simp only [Prod.mk.injEq, Except.ok.injEq] at h
          exact h.1 ▸ List.get?_mem hg
      · simp at h

theorem drawAppend_ok (chars : String) (acc : List Char) (s : RNG)
    (acc' : List Char) (s' : RNG)
    (h : drawAppend chars acc s = (.ok acc', s')) :
    ∃ c, acc' = acc ++ [c] ∧ c ∈ chars.data := by
  unfold drawAppend at h
  split at h
  · simp at h
  · next c s1 hd =>
      simp only [Prod.mk.injEq, Except.ok.injEq] at h
      exact ⟨c, h.1.symm, drawChar_ok_mem chars s c s1 hd⟩

theorem drawIf_ok (b : Bool) (chars : String) (acc : List Char) (s : RNG)
    (acc' : List Char) (s' : RNG)
    (h : drawIf b chars acc s = (.ok acc', s')) :
    (b = false ∧ acc' = acc) ∨
      (b = true ∧ ∃ c, acc' = acc ++ [c] ∧ c ∈ chars.data) := by
  unfold drawIf at h
  by_cases hb : b
  · rw [if_pos hb] at h
    exact Or.inr ⟨hb, drawAppend_ok chars acc s acc' s' h⟩
  · rw [if_neg hb] at h
    simp only [Prod.mk.injEq, Except.ok.injEq] at h
    exact Or.inl ⟨by simpa using hb, h.1.symm⟩

theorem fillChars_zero (chars : String) (acc : List Char) (s : RNG) :
    fillChars chars 0 acc s = (.ok acc, s) := by
  rw [fillChars.eq_def]

theorem fillChars_ok (chars : String) :
    ∀ (k : Nat) (acc : List Char) (s : RNG) (acc' : List Char) (s' : RNG),
      fillChars chars k acc s = (.ok acc', s') →
      acc'.length = acc.length + k ∧
        (∀ c, c ∈ acc' → c ∈ acc ∨ c ∈ chars.data) ∧
        (∀ c, c ∈ acc → c ∈ acc') := by
  intro k
  induction k with
  | zero =>
      intro acc s acc' s' h
      rw [fillChars_zero] at h
      simp only [Prod.mk.injEq, Except.ok.injEq] at h
      obtain ⟨h1, -⟩ := h
      subst h1
      exact ⟨rfl, fun c hc => Or.inl hc, fun c hc => hc⟩
  | succ k ih =>
      intro acc s acc' s' h
      rw [fillChars_succ] at h
      split at h
      · simp at h
      · next c s1 hd =>
          obtain ⟨hlen, hmem, hkeep⟩ := ih (acc ++ [c]) s1 acc' s' h
          refine ⟨by simp at hlen ⊢; omega, fun a ha => ?_,
            fun a ha => hkeep a (List.mem_append.2 (Or.inl ha))⟩
          rcases hmem a ha with hmem1 | hmem2
          · rcases List.mem_append.1 hmem1 with h1 | h1
            · exact Or.inl h1
            · simp only [List.mem_singleton] at h1
              exact Or.inr (h1 ▸ drawChar_ok_mem chars s c s1 hd)
          · exact Or.inr hmem2

theorem swapL_length (l : List Char) (i j : Nat) :
    (swapL l i j).length = l.length := by
  simp [swapL]

theorem getD_swapL (l : List Char) (i j k : Nat) (hi : i < l.length)
    (hj : j < l.length) (hk : k < l.length) :
    (swapL l i j).getD k (Char.ofNat 0) =
      if k = j then l.getD i (Char.ofNat 0)
      else if k = i then l.getD j (Char.ofNat 0)
      else l.getD k (Char.ofNat 0) := by
  unfold swapL
  by_cases hkj : k = j
  · subst hkj
    rw [if_pos rfl]
    rw [List.getD_eq_getElem _ _ (by simpa using hk)]
    rw [List.getElem_set_self (by simpa using hk)]
  · rw [if_neg hkj]
    rw [List.getD_eq_getElem _ _ (by simpa using hk)]
    rw [List.getElem_set_ne (fun hx => hkj hx.symm) (by simpa using hk)]
    by_cases hki : k = i
    · subst hki
      rw [if_pos rfl]
      rw [List.getElem_set_self (by simpa using hk)]
    · rw [if_neg hki]
      rw [List.getElem_set_ne (fun hx => hki hx.symm) (by simpa using hk)]
      rw [List.getD_eq_getElem _ _ hk]

theorem mem_getD_iff (l : List Char) (a : Char) :
    a ∈ l ↔ ∃ k, k < l.length ∧ l.getD k (Char.ofNat 0) = a := by
  rw [List.mem_iff_getElem]
  constructor
  · rintro ⟨k, hk, hka⟩
    exact ⟨k, hk, by rw [List.getD_eq_getElem _ _ hk]; exact hka⟩
  · rintro ⟨k, hk, hka⟩
    exact ⟨k, hk, by rw [List.getD_eq_getElem _ _ hk] at hka; exact hka⟩

theorem mem_swapL (l : List Char) (i j : Nat) (hi : i < l.length)
    (hj : j < l.length) (a : Char) : a ∈ swapL l i j ↔ a ∈ l := by
  have hsl : (swapL l i j).length = l.length := swapL_length l i j
  rw [mem_getD_iff, mem_getD_iff]
  constructor
  · rintro ⟨k, hk, hka⟩
    rw [hsl] at hk
    rw [getD_swapL l i j k hi hj hk] at hka
    by_cases h1 : k = j
    · exact ⟨i, hi, by rwa [if_pos h1] at hka⟩
    · by_cases h2 : k = i
      · exact ⟨j, hj, by rw [if_neg h1, if_pos h2] at hka; exact hka⟩
      · exact ⟨k, hk, by rw [if_neg h1, if_neg h2] at hka; exact hka⟩
  · rintro ⟨k, hk, hka⟩
    by_cases h1 : k = i
    · refine ⟨j, by omega, ?_⟩
      rw [getD_swapL l i j j hi hj hj, if_pos rfl]
      exact h1 ▸ hka
    · by_cases h2 : k = j
      · refine ⟨i, by omega, ?_⟩
        rw [getD_swapL l i j i hi hj hi]
        by_cases h3 : i = j
        · rw [if_pos h3]
          rw [h3]
          exact h2 ▸ hka
        · rw [if_neg h3, if_pos rfl]
          exact h2 ▸ hka
      · refine ⟨k, by omega, ?_⟩
        rw [getD_swapL l i j k hi hj hk, if_neg h2, if_neg h1]
        exact hka

theorem strData_append (a b : String) : (a ++ b).data = a.data ++ b.data := rfl

theorem shuffleGo_zero (l : List Char) (s : RNG) : shuffleGo 0 l s = (.ok l, s) := by
  rw [shuffleGo.eq_def]

theorem shuffleGo_succ (i : Nat) (l : List Char) (s : RNG) :
    shuffleGo (i + 1) l s =
      match unbiased 0 (i + 1) s with
      | (.error e, s') => (.error e, s')
      | (.ok j, s') => shuffleGo i (swapL l (i + 1) j) s' := by
  rw [shuffleGo.eq_def]

theorem shuffleGo_ok :
    ∀ (i : Nat) (l : List Char) (s : RNG) (l' : List Char) (s' : RNG),
      i < l.length → l.length < MAX64 →
      shuffleGo i l s = (.ok l', s') →
      l'.length = l.length ∧ ∀ a, a ∈ l' ↔ a ∈ l := by
  intro i
  induction i with
  | zero =>
      intro l s l' s' _ _ h
      rw [shuffleGo_zero] at h
      simp only [Prod.mk.injEq, Except.ok.injEq] at h
      obtain ⟨h1, -⟩ := h
      subst h1
      exact ⟨rfl, fun a => Iff.rfl⟩
  | succ i ih =>
      intro l s l' s' hi hlen h
      rw [shuffleGo_succ] at h
      split at h
      · simp at h
      · next j s1 hu =>
          have hj : j ≤ i + 1 :=
            (unbiased_ok_bounds 0 (i + 1) s j s1 (by omega) (by omega) hu).2
          have hswlen : (swapL l (i + 1) j).length = l.length := swapL_length l (i + 1) j
          obtain ⟨hlen', hmem'⟩ := ih (swapL l (i + 1) j) s1 l' s'
            (by omega) (by omega) h
          refine ⟨by omega, fun a => ?_⟩
          rw [hmem' a, mem_swapL l (i + 1) j hi (by omega) a]

theorem drawIf_ok_facts (b : Bool) (chars : String) (acc : List Char) (s : RNG)
    (acc' : List Char) (s' : RNG)
    (h : drawIf b chars acc s = (.ok acc', s')) :
    acc'.length = acc.length + (if b then 1 else 0) ∧
    (∀ c, c ∈ acc → c ∈ acc') ∧
    (∀ c, c ∈ acc' → c ∈ acc ∨ (b = true ∧ c ∈ chars.data)) ∧
    (b = true → ∃ c, c ∈ acc' ∧ c ∈ chars.data) := by
  rcases drawIf_ok b chars acc s acc' s' h with ⟨hb, rfl⟩ | ⟨hb, c, rfl, hc⟩
  · subst hb
    exact ⟨by simp, fun c hc => hc, fun c hc => Or.inl hc, by simp⟩
  · subst hb
    refine ⟨by simp, fun a ha => List.mem_append.2 (Or.inl ha), fun a ha => ?_,
      fun _ => ⟨c, List.mem_append.2 (Or.inr (by simp)), hc⟩⟩
    rcases List.mem_append.1 ha with h1 | h1
    · exact Or.inl h1
    · simp only [List.mem_singleton] at h1
      exact Or.inr ⟨rfl, h1 ▸ hc⟩

theorem allChars_data (cu cl cd cs : String) (bU bL bD bS : Bool) :
    (allChars cu cl cd cs bU bL bD bS).data =
      (if bU then cu else "").data ++ (if bL then cl else "").data ++
      (if bD then cd else "").data ++ (if bS then cs else "").data := rfl

theorem mem_allChars_cu (cu cl cd cs : String) (bU bL bD bS : Bool) (c : Char)
    (hb : bU = true) (hc : c ∈ cu.data) :
    c ∈ (allChars cu cl cd cs bU bL bD bS).data := by
  rw [allChars_data]
  subst hb
  simp only [if_true, List.mem_append]
  tauto

theorem mem_allChars_cl (cu cl cd cs : String) (bU bL bD bS : Bool) (c : Char)
    (hb : bL = true) (hc : c ∈ cl.data) :
    c ∈ (allChars cu cl cd cs bU bL bD bS).data := by
  rw [allChars_data]
  subst hb
  simp only [if_true, List.mem_append]
  tauto

theorem mem_allChars_cd (cu cl cd cs : String) (bU bL bD bS : Bool) (c : Char)
    (hb : bD = true) (hc : c ∈ cd.data) :
    c ∈ (allChars cu cl cd cs bU bL bD bS).data := by
  rw [allChars_data]
  subst hb
  simp only [if_true, List.mem_append]
  tauto

theorem mem_allChars_cs (cu cl cd cs : String) (bU bL bD bS : Bool) (c : Char)
    (hb : bS = true) (hc : c ∈ cs.data) :
    c ∈ (allChars cu cl cd cs bU bL bD bS).data := by
  rw [allChars_data]
  subst hb
  simp only [if_true, List.mem_append]
  tauto

theorem composeBody_ok_policy (L : Nat) (cu cl cd cs : String) (bU bL bD bS : Bool)
    (rng : RNG) (pwd : String) (sf : RNG)
    (hLM : L < MAX64) (hL1 : 1 ≤ L)
    (hrc : (if bU then 1 else 0) + (if bL then 1 else 0) + (if bD then 1 else 0) +
      (if bS then 1 else 0) ≤ L)
    (h : composeBody L cu cl cd cs (allChars cu cl cd cs bU bL bD bS) bU bL bD bS rng =
      (.ok pwd, sf)) :
    pwd.length = L ∧
    (bU = true → ∃ c, c ∈ pwd.data ∧ c ∈ cu.data) ∧
    (bL = true → ∃ c, c ∈ pwd.data ∧ c ∈ cl.data) ∧
    (bD = true → ∃ c, c ∈ pwd.data ∧ c ∈ cd.data) ∧
    (bS = true → ∃ c, c ∈ pwd.data ∧ c ∈ cs.data) ∧
    (∀ c, c ∈ pwd.data → c ∈ (allChars cu cl cd cs bU bL bD bS).data) := by
  unfold composeBody at h
  split at h
  · simp at h
  next a1 t1 h1 =>
  split at h
  · simp at h
  next a2 t2 h2 =>
  split at h
  · simp at h
  next a3 t3 h3 =>
  split at h
  · simp at h
  next a4 t4 h4 =>
  split at h
  · simp at h
  next full t5 h5 =>
  split at h
  · simp at h
  next shuffled t6 h6 =>
  simp only [Prod.mk.injEq, Except.ok.injEq] at h
  obtain ⟨hpwd, -⟩ := h
  obtain ⟨l1, k1, m1, e1⟩ := drawIf_ok_facts _ _ _ _ _ _ h1
  obtain ⟨l2, k2, m2, e2⟩ := drawIf_ok_facts _ _ _ _ _ _ h2
  obtain ⟨l3, k3, m3, e3⟩ := drawIf_ok_facts _ _ _ _ _ _ h3
  obtain ⟨l4, k4, m4, e4⟩ := drawIf_ok_facts _ _ _ _ _ _ h4
  obtain ⟨lf, mf, kf⟩ := fillChars_ok _ _ _ _ _ _ h5
  have hlenfull : full.length = L := by
    simp only [List.length_nil] at l1
    omega
  obtain ⟨ls, ms⟩ := shuffleGo_ok (L - 1) full t5 shuffled t6
    (by omega) (by omega) h6
  have hdata : pwd.data = shuffled := by rw [← hpwd]
  have hmemfull : ∀ c, c ∈ pwd.data ↔ c ∈ full := by
    intro c
    rw [hdata]
    exact ms c
  have hsub4 : ∀ c, c ∈ a4 → c ∈ pwd.data := by
    intro c hc
    exact (hmemfull c).2 (kf c hc)
  refine ⟨?_, ?_, ?_, ?_, ?_, ?_⟩
  · have : pwd.length = pwd.data.length := rfl
    rw [this, hdata]
    omega
  · intro hb
    obtain ⟨c, hc1, hc2⟩ := e1 hb
    exact ⟨c, hsub4 c (k4 c (k3 c (k2 c hc1))), hc2⟩
  · intro hb
    obtain ⟨c, hc1, hc2⟩ := e2 hb
    exact ⟨c, hsub4 c (k4 c (k3 c hc1)), hc2⟩
  · intro hb
    obtain ⟨c, hc1, hc2⟩ := e3 hb
    exact ⟨c, hsub4 c (k4 c hc1), hc2⟩
  · intro hb
    obtain ⟨c, hc1, hc2⟩ := e4 hb
    exact ⟨c, hsub4 c hc1, hc2⟩
  · intro c hc
    have hcf : c ∈ full := (hmemfull c).1 hc
    rcases mf c hcf with hc4 | hcall
    · rcases m4 c hc4 with hc3 | ⟨hbS, hcs⟩
      · rcases m3 c hc3 with hc2 | ⟨hbD, hcd⟩
        · rcases m2 c hc2 with hc1 | ⟨hbL, hcl⟩
          · rcases m1 c hc1 with hc0 | ⟨hbU, hcu⟩
            · simp at hc0
            · exact mem_allChars_cu cu cl cd cs bU bL bD bS c hbU hcu
          · exact mem_allChars_cl cu cl cd cs bU bL bD bS c hbL hcl
        · exact mem_allChars_cd cu cl cd cs bU bL bD bS c hbD hcd
      · exact mem_allChars_cs cu cl cd cs bU bL bD bS c hbS hcs
    · exact hcall

set_option maxHeartbeats 1000000 in
theorem gp_ok_policy (u p st : String) (L V : Nat) (cu cl cd cs : String)
    (bU bL bD bS : Bool) (pwd : String)
    (h : generate_password u p st L V cu cl cd cs bU bL bD bS = .ok pwd) :
    pwd.length = L ∧
    (bU = true → ∃ c, c ∈ pwd.data ∧ c ∈ cu.data) ∧
    (bL = true → ∃ c, c ∈ pwd.data ∧ c ∈ cl.data) ∧
    (bD = true → ∃ c, c ∈ pwd.data ∧ c ∈ cd.data) ∧
    (bS = true → ∃ c, c ∈ pwd.data ∧ c ∈ cs.data) ∧
    (∀ c, c ∈ pwd.data → c ∈ (allChars cu cl cd cs bU bL bD bS).data) := by
  rw [generate_password.eq_def] at h
  by_cases h1 : u.isEmpty
  · rw [if_pos h1] at h
    exact absurd h (by simp)
  rw [if_neg h1] at h
  by_cases h2 : p.isEmpty
  · rw [if_pos h2] at h
    exact absurd h (by simp)
  rw [if_neg h2] at h
  by_cases h3 : st.isEmpty
  · rw [if_pos h3] at h
    exact absurd h (by simp)
  rw [if_neg h3] at h
  by_cases h4 : L < 6 ∨ L > 128
  · rw [if_pos h4] at h
    exact absurd h (by simp)
  rw [if_neg h4] at h
  by_cases h5 : V < 1
  · rw [if_pos h5] at h
    exact absurd h (by simp)
  rw [if_neg h5] at h
  by_cases h6 : bU = true ∧ cu.isEmpty = true
  · rw [if_pos h6] at h
    exact absurd h (by simp)
  rw [if_neg h6] at h
  by_cases h7 : bL = true ∧ cl.isEmpty = true
  · rw [if_pos h7] at h
    exact absurd h (by simp)
  rw [if_neg h7] at h
  by_cases h8 : bD = true ∧ cd.isEmpty = true
  · rw [if_pos h8] at h
    exact absurd h (by simp)
  rw [if_neg h8] at h
  by_cases h9 : bS = true ∧ cs.isEmpty = true
  · rw [if_pos h9] at h
    exact absurd h (by simp)
  rw [if_neg h9] at h
  by_cases h10 : L <
      (if bU = true then 1 else 0) + (if bL = true then 1 else 0) +
        (if bD = true then 1 else 0) + (if bS = true then 1 else 0)
  · rw [if_pos h10] at h
    exact absurd h (by simp)
  rw [if_neg h10] at h
  rcases hsk : StoneKey p
      (buildContext u st L V bU bL bD bS) 20 3 with e | hash1
  · rw [hsk] at h
    simp at h
  rw [hsk] at h
  simp only [] at h
  rcases hmk : mkRNGfromBlock32 hash1 with ⟨r0, rng⟩
  rw [hmk] at h
  rcases r0 with e | u0
  · simp at h
  simp only [] at h
  rcases hcb : composeBody L cu cl cd cs (allChars cu cl cd cs bU bL bD bS)
      bU bL bD bS rng with ⟨r, t⟩
  rw [hcb] at h
  rcases r with e | pwd'
  · simp at h
  simp only [Except.ok.injEq] at h
  subst h
  have hM : MAX64 = 18446744073709551615 := rfl
  refine composeBody_ok_policy L cu cl cd cs bU bL bD bS rng pwd' t ?_ ?_ ?_ hcb
  · omega
  · omega
  · omega

theorem draw_lt (key : List Nat) (n0 n1 c : Nat) (buf : List Nat) (w : Nat)
    (h : w < 8) :
    draw ⟨key, n0, n1, c, buf, w⟩ =
      (.ok (u64At buf w), ⟨key, n0, n1, c, buf, w + 1⟩) := by
  unfold draw
  rw [if_neg (by simp; omega)]

theorem refill_no_wrap (key : List Nat) (n0 n1 c : Nat) (buf : List Nat) (w : Nat)
    (h : c + 1 < M64) :
    refill ⟨key, n0, n1, c, buf, w⟩ =
      (.ok (), ⟨key, n0, n1, c + 1, permute_block (build_state key n0 n1 c), 0⟩) := by
  unfold refill
  simp only
  rw [Nat.mod_eq_of_lt h]
  rw [if_neg (by omega)]

theorem draw_at8 (key : List Nat) (n0 n1 c : Nat) (buf : List Nat)
    (h : c + 1 < M64) :
    draw ⟨key, n0, n1, c, buf, 8⟩ =
      (.ok (u64At (permute_block (build_state key n0 n1 c)) 0),
       ⟨key, n0, n1, c + 1, permute_block (build_state key n0 n1 c), 1⟩) := by
  unfold draw
  rw [if_pos (by simp)]
  rw [refill_no_wrap key n0 n1 c buf 8 h]

theorem discard_zero (s : RNG) : discard 0 s = (.ok (), s) := by
  unfold discard
  rw [if_pos rfl]

theorem discard_small (key : List Nat) (n0 n1 c : Nat) (buf : List Nat) (w n : Nat)
    (hn : n ≠ 0) (hs : n < 8 - w) :
    discard n ⟨key, n0, n1, c, buf, w⟩ = (.ok (), ⟨key, n0, n1, c, buf, w + n⟩) := by
  unfold discard
  rw [if_neg hn, if_pos (by simpa using hs)]

theorem discard_heavy_rem (key : List Nat) (n0 n1 c : Nat) (buf : List Nat)
    (w n : Nat) (hn : n ≠ 0) (hs : ¬ n < 8 - w)
    (hr : (n - (8 - w)) % 8 ≠ 0)
    (hcb : c + (n - (8 - w)) / 8 + 1 < M64) :
    discard n ⟨key, n0, n1, c, buf, w⟩ =
      (.ok (), ⟨key, n0, n1, c + (n - (8 - w)) / 8 + 1,
        permute_block (build_state key n0 n1 (c + (n - (8 - w)) / 8)),
        (n - (8 - w)) % 8⟩) := by
  unfold discard
  rw [if_neg hn, if_neg (by simpa using hs)]
  simp only
  rw [if_neg (by simp [MAX64, M64] at hcb ⊢; omega)]
  rw [if_pos hr]
  rw [Nat.mod_eq_of_lt (by omega)]
  rw [refill_no_wrap key n0 n1 (c + (n - (8 - w)) / 8) buf 8 (by omega)]

theorem discard_heavy_rem0 (key : List Nat) (n0 n1 c : Nat) (buf : List Nat)
    (w n : Nat) (hn : n ≠ 0) (hs : ¬ n < 8 - w)
    (hr : (n - (8 - w)) % 8 = 0)
    (hcb : c + (n - (8 - w)) / 8 < M64) :
    discard n ⟨key, n0, n1, c, buf, w⟩ =
      (.ok (), ⟨key, n0, n1, c + (n - (8 - w)) / 8, buf, 8⟩) := by
  unfold discard
  rw [if_neg hn, if_neg (by simpa using hs)]
  simp only
  rw [if_neg (by simp [MAX64, M64] at hcb ⊢; omega)]
  rw [if_neg (by simpa using hr)]
  rw [Nat.mod_eq_of_lt (by omega)]

theorem discardThenDraw_ok (n : Nat) (s D : RNG) (h : discard n s = (.ok (), D)) :
    discardThenDraw n s = draw D := by
  unfold discardThenDraw
  rw [h]

theorem discardThenDraw_step (key : List Nat) (n0 n1 c : Nat) (buf : List Nat)
    (w n : Nat) (hw : w ≤ 8)
    (hc : c + (w + (n + 1)) / 8 + 1 < M64) :
    ∃ v s1, draw ⟨key, n0, n1, c, buf, w⟩ = (.ok v, s1) ∧ s1.wordIndex ≤ 8 ∧
      s1.counter + (s1.wordIndex + n) / 8 + 1 < M64 ∧
      discardThenDraw (n + 1) ⟨key, n0, n1, c, buf, w⟩ = discardThenDraw n s1 := by
  by_cases hw8 : w < 8
  · -- unread words remain: the draw consumes one buffer word
    refine ⟨u64At buf w, ⟨key, n0, n1, c, buf, w + 1⟩, draw_lt key n0 n1 c buf w hw8,
      by simp; omega, by simp; omega, ?_⟩
    by_cases hsmall : n + 1 < 8 - w
    · -- the skip stays inside the buffer on both sides
      rw [discardThenDraw_ok _ _ _
        (discard_small key n0 n1 c buf w (n + 1) (by omega) hsmall)]
      by_cases hn : n = 0
      · subst hn
        rw [discardThenDraw_ok _ _ _ (discard_zero _)]
      · rw [discardThenDraw_ok _ _ _
          (discard_small key n0 n1 c buf (w + 1) n hn (by omega))]
        have he : w + (n + 1) = w + 1 + n := by omega
        rw [he]
    · -- the skip leaves the buffer on both sides
      by_cases hn : n = 0
      · -- then w = 7 and the skip consumes exactly the last word
        subst hn
        have hw7 : w = 7 := by omega
        subst hw7
        rw [discardThenDraw_ok _ _ _
          (discard_heavy_rem0 key n0 n1 c buf 7 1 (by omega) (by omega)
            (by norm_num) (by norm_num; omega))]
        rw [discardThenDraw_ok _ _ _ (discard_zero _)]
        norm_num
      · have ha : n + 1 - (8 - w) = n - (8 - (w + 1)) := by omega
        by_cases hrem : (n + 1 - (8 - w)) % 8 ≠ 0
        · rw [discardThenDraw_ok _ _ _
            (discard_heavy_rem key n0 n1 c buf w (n + 1) (by omega) hsmall hrem
              (by omega))]
          rw [discardThenDraw_ok _ _ _
            (discard_heavy_rem key n0 n1 c buf (w + 1) n hn (by omega)
              (by omega) (by omega))]
          rw [ha]
        · push_neg at hrem
          rw [discardThenDraw_ok _ _ _
            (discard_heavy_rem0 key n0 n1 c buf w (n + 1) (by omega) hsmall hrem
              (by omega))]
          rw [discardThenDraw_ok _ _ _
            (discard_heavy_rem0 key n0 n1 c buf (w + 1) n hn (by omega)
              (by omega) (by omega))]
          rw [ha]
  · -- the buffer is exhausted: the draw refills first
    have hw8e : w = 8 := by omega
    subst hw8e
    have hc1 : c + 1 < M64 := by omega
    refine ⟨u64At (permute_block (build_state key n0 n1 c)) 0,
      ⟨key, n0, n1, c + 1, permute_block (build_state key n0 n1 c), 1⟩,
      draw_at8 key n0 n1 c buf hc1, by simp, by simp; omega, ?_⟩
    by_cases hn : n = 0
    · subst hn
      rw [discardThenDraw_ok _ _ _
        (discard_heavy_rem key n0 n1 c buf 8 1 (by omega) (by omega) (by norm_num)
          (by norm_num; omega))]
      rw [discardThenDraw_ok _ _ _ (discard_zero _)]
      norm_num
    · by_cases hsm : n < 7
      · rw [discardThenDraw_ok _ _ _
          (discard_heavy_rem key n0 n1 c buf 8 (n + 1) (by omega) (by omega)
            (by omega) (by omega))]
        rw [discardThenDraw_ok _ _ _
          (discard_small key n0 n1 (c + 1) (permute_block (build_state key n0 n1 c))
            1 n hn (by omega))]
        have e0 : n + 1 - (8 - 8) = n + 1 := by omega
        rw [e0]
        have e1 : (n + 1) / 8 = 0 := by omega
        rw [e1]
        have e2 : (n + 1) % 8 = n + 1 := by omega
        rw [e2]
        have e3 : 1 + n = n + 1 := by omega
        rw [e3]
        norm_num
      · -- n ≥ 7: whole blocks are skipped on both sides
        have e0 : n + 1 - (8 - 8) = n + 1 := by omega
        by_cases hrem : (n + 1) % 8 ≠ 0
        · rw [discardThenDraw_ok _ _ _
            (discard_heavy_rem key n0 n1 c buf 8 (n + 1) (by omega) (by omega)
              (by simpa [e0] using hrem) (by omega))]
          rw [discardThenDraw_ok _ _ _
            (discard_heavy_rem key n0 n1 (c + 1)
              (permute_block (build_state key n0 n1 c)) 1 n hn (by omega)
              (by omega) (by omega))]
          rw [e0]
          have ec : c + (n + 1) / 8 = c + 1 + (n - (8 - 1)) / 8 := by omega
          have er : (n + 1) % 8 = (n - (8 - 1)) % 8 := by omega
          rw [ec, er]
        · push_neg at hrem
          rw [discardThenDraw_ok _ _ _
            (discard_heavy_rem0 key n0 n1 c buf 8 (n + 1) (by omega) (by omega)
              (by simpa [e0] using hrem) (by omega))]
          rw [discardThenDraw_ok _ _ _
            (discard_heavy_rem0 key n0 n1 (c + 1)
              (permute_block (build_state key n0 n1 c)) 1 n hn (by omega)
              (by omega) (by omega))]
          rw [e0]
          rw [draw_at8 key n0 n1 (c + (n + 1) / 8) buf (by omega)]
          rw [draw_at8 key n0 n1 (c + 1 + (n - (8 - 1)) / 8)
            (permute_block (build_state key n0 n1 c)) (by omega)]
          have ec : c + (n + 1) / 8 = c + 1 + (n - (8 - 1)) / 8 := by omega
          rw [ec]

theorem drawsLast_one (s : RNG) : drawsLast 1 s = draw s := by
  rw [drawsLast.eq_def]

theorem drawsLast_succ_ok (n : Nat) (s s1 : RNG) (v : Nat)
    (h : draw s = (.ok v, s1)) :
    drawsLast (n + 2) s = drawsLast (n + 1) s1 := by
  have e : drawsLast (n + 2) s =
      match draw s with
      | (.error e, s') => (.error e, s')
      | (.ok _, s') => drawsLast (n + 1) s' := by
    rw [drawsLast.eq_def]
  rw [e, h]

theorem lor_eq_zero (a b : Nat) : a ||| b = 0 ↔ a = 0 ∧ b = 0 := by
  constructor
  · intro h
    constructor
    · apply Nat.eq_of_testBit_eq
      intro i
      have hx := congrArg (fun x => Nat.testBit x i) h
      simp only [Nat.testBit_or] at hx
      simp only [Nat.zero_testBit] at hx
      simp [Bool.or_eq_false_iff.1 hx |>.1]
    · apply Nat.eq_of_testBit_eq
      intro i
      have hx := congrArg (fun x => Nat.testBit x i) h
      simp only [Nat.testBit_or] at hx
      simp only [Nat.zero_testBit] at hx
      simp [Bool.or_eq_false_iff.1 hx |>.2]
  · rintro ⟨rfl, rfl⟩
    rfl

theorem key_eq_of_getD (ka kb : List Nat) (ha : ka.length = 8) (hb : kb.length = 8)
    (h : ∀ i, i < 8 → ka.getD i 0 = kb.getD i 0) : ka = kb := by
  apply List.ext_getElem (by omega)
  intro i h1 h2
  have := h i (by omega)
  rwa [List.getD_eq_getElem ka 0 h1, List.getD_eq_getElem kb 0 h2] at this

theorem rngEqB_iff (a b : RNG) (ha : a.key.length = 8) (hb : b.key.length = 8) :
    rngEqB a b = true ↔
      (a.key = b.key ∧ a.nonce0 = b.nonce0 ∧ a.nonce1 = b.nonce1 ∧
        a.counter = b.counter ∧ a.wordIndex = b.wordIndex) := by
  unfold rngEqB
  have hr : List.range 8 = [0, 1, 2, 3, 4, 5, 6, 7] := rfl
  rw [hr]
  simp only [List.foldl_cons, List.foldl_nil, Bool.and_eq_true, beq_iff_eq]
  constructor
  · rintro ⟨⟨⟨⟨hk, h0⟩, h1⟩, hc⟩, hw⟩
    refine ⟨?_, h0, h1, hc, hw⟩
    simp only [Nat.zero_or] at hk
    simp only [lor_eq_zero] at hk
    obtain ⟨⟨⟨⟨⟨⟨⟨k0, k1⟩, k2⟩, k3⟩, k4⟩, k5⟩, k6⟩, k7⟩ := hk
    apply key_eq_of_getD a.key b.key ha hb
    intro i hi
    interval_cases i
    · exact Nat.xor_eq_zero.1 k0
    · exact Nat.xor_eq_zero.1 k1
    · exact Nat.xor_eq_zero.1 k2
    · exact Nat.xor_eq_zero.1 k3
    · exact Nat.xor_eq_zero.1 k4
    · exact Nat.xor_eq_zero.1 k5
    · exact Nat.xor_eq_zero.1 k6
    · exact Nat.xor_eq_zero.1 k7
  · rintro ⟨hk, h0, h1, hc, hw⟩
    rw [hk]
    refine ⟨⟨⟨⟨?_, h0⟩, h1⟩, hc⟩, hw⟩
    simp [Nat.xor_self]

theorem rngRel_refl (a : RNG) : rngRel a a :=
  ⟨rfl, rfl, rfl, rfl, rfl, fun _ => rfl⟩

theorem rngRel_of_eq (a b : RNG) (h : a = b) : rngRel a b := h ▸ rngRel_refl a

theorem refill_rel (a b : RNG) (h : rngRel a b) : refill a = refill b := by
  obtain ⟨hk, h0, h1, hc, hw, _⟩ := h
  rcases a with ⟨ka, a0, a1, ca, bufa, wa⟩
  rcases b with ⟨kb, b0, b1, cb, bufb, wb⟩
  simp only at hk h0 h1 hc hw
  subst hk h0 h1 hc hw
  unfold refill
  rfl

theorem draw_rel (a b : RNG) (h : rngRel a b) :
    (draw a).1 = (draw b).1 ∧ rngRel (draw a).2 (draw b).2 := by
  have hw := h.2.2.2.2.1
  by_cases hge : a.wordIndex ≥ 8
  · have hgeb : b.wordIndex ≥ 8 := by omega
    have hre := refill_rel a b h
    unfold draw
    rw [if_pos hge, if_pos hgeb, ← hre]
    rcases hr : refill a with ⟨r, a'⟩
    rcases r with e | u
    · exact ⟨rfl, rngRel_refl a'⟩
    · exact ⟨rfl, rngRel_refl _⟩
  · have hgeb : ¬ b.wordIndex ≥ 8 := by omega
    have hbuf := h.2.2.2.2.2 (by omega)
    unfold draw
    rw [if_neg hge, if_neg hgeb]
    obtain ⟨hk, h0, h1, hc, hww, _⟩ := h
    refine ⟨by rw [hbuf, hww], ?_⟩
    refine ⟨hk, h0, h1, hc, by simp [hww], ?_⟩
    intro _
    simpa using hbuf

theorem discard_rel (n : Nat) (a b : RNG) (h : rngRel a b) :
    (discard n a).1 = (discard n b).1 ∧ rngRel (discard n a).2 (discard n b).2 := by
  obtain ⟨hk, h0, h1, hc, hw, hbuf⟩ := h
  unfold discard
  by_cases hn : n = 0
  · rw [if_pos hn, if_pos hn]
    exact ⟨rfl, ⟨hk, h0, h1, hc, hw, hbuf⟩⟩
  rw [if_neg hn, if_neg hn, hw]
  by_cases hsmall : n < 8 - b.wordIndex
  · rw [if_pos hsmall, if_pos hsmall]
    refine ⟨rfl, hk, h0, h1, hc, by simp [hw], ?_⟩
    intro hlt
    simp only at hlt
    exact hbuf (by omega)
  rw [if_neg hsmall, if_neg hsmall]
  simp only [hc]
  by_cases hof : b.counter > MAX64 - (n - (8 - b.wordIndex)) / 8
  · rw [if_pos hof, if_pos hof]
    exact ⟨rfl, hk, h0, h1, by simp [hc], by simp, by simp⟩
  rw [if_neg hof, if_neg hof]
  by_cases hrem : (n - (8 - b.wordIndex)) % 8 ≠ 0
  · rw [if_pos hrem, if_pos hrem]
    have hre : refill { a with
        wordIndex := 8
        counter := (a.counter + (n - (8 - b.wordIndex)) / 8) % M64 } =
      refill { b with
        wordIndex := 8
        counter := (b.counter + (n - (8 - b.wordIndex)) / 8) % M64 } := by
      apply refill_rel
      exact ⟨hk, h0, h1, by simp [hc], by simp, by simp⟩
    rw [hc] at hre
    rw [← hre]
    rcases hr : refill { a with
        wordIndex := 8
        counter := (a.counter + (n - (8 - b.wordIndex)) / 8) % M64 } with ⟨r, a'⟩
    rcases r with e | u
    · exact ⟨rfl, rngRel_refl _⟩
    · exact ⟨rfl, rngRel_refl _⟩
  · rw [if_neg hrem, if_neg hrem]
    exact ⟨rfl, hk, h0, h1, by simp [hc], by simp, by simp⟩

theorem unbiasedLoop_err (lo range limit : Nat) (s : RNG) (e : StErr) (t : RNG)
    (h : draw s = (.error e, t)) :
    unbiasedLoop lo range limit s = (.error e, t) := by
  rw [unbiasedLoop.eq_def]
  split
  · next e2 t2 heq =>
      rw [h] at heq
      simp only [Prod.mk.injEq, Except.error.injEq] at heq
      rw [heq.1, heq.2]
  · next v t2 heq =>
      rw [h] at heq
      simp at heq

theorem unbiasedLoop_ok_gt (lo range limit : Nat) (s : RNG) (v : Nat) (t : RNG)
    (h : draw s = (.ok v, t)) (hv : v > limit) :
    unbiasedLoop lo range limit s = unbiasedLoop lo range limit t := by
  rw [unbiasedLoop.eq_def]
  split
  · next e2 t2 heq =>
      rw [h] at heq
      simp at heq
  · next v2 t2 heq =>
      rw [h] at heq
      simp only [Prod.mk.injEq, Except.ok.injEq] at heq
      obtain ⟨hv2, ht2⟩ := heq
      subst hv2 ht2
      rw [if_pos hv]

theorem unbiasedLoop_ok_le (lo range limit : Nat) (s : RNG) (v : Nat) (t : RNG)
    (h : draw s = (.ok v, t)) (hv : ¬ v > limit) :
    unbiasedLoop lo range limit s = (.ok (lo + v % range), t) := by
  rw [unbiasedLoop.eq_def]
  split
  · next e2 t2 heq =>
      rw [h] at heq
      simp at heq
  · next v2 t2 heq =>
      rw [h] at heq
      simp only [Prod.mk.injEq, Except.ok.injEq] at heq
      obtain ⟨hv2, ht2⟩ := heq
      subst hv2 ht2
      rw [if_neg hv]

theorem unbiasedLoop_rel (lo range limit : Nat) (a b : RNG) (h : rngRel a b) :
    (unbiasedLoop lo range limit a).1 = (unbiasedLoop lo range limit b).1 ∧
    rngRel (unbiasedLoop lo range limit a).2 (unbiasedLoop lo range limit b).2 := by
  have hd := draw_rel a b h
  rcases ha : draw a with ⟨ra, a2⟩
  rcases hb : draw b with ⟨rb, b2⟩
  rw [ha, hb] at hd
  have hr : ra = rb := hd.1
  have hrel : rngRel a2 b2 := hd.2
  subst hr
  rcases ra with e | v
  · rw [unbiasedLoop_err lo range limit a e a2 ha,
      unbiasedLoop_err lo range limit b e b2 hb]
    exact ⟨rfl, hrel⟩
  · by_cases hv : v > limit
    · rw [unbiasedLoop_ok_gt lo range limit a v a2 ha hv,
        unbiasedLoop_ok_gt lo range limit b v b2 hb hv]
      exact unbiasedLoop_rel lo range limit a2 b2 hrel
    · rw [unbiasedLoop_ok_le lo range limit a v a2 ha hv,
        unbiasedLoop_ok_le lo range limit b v b2 hb hv]
      exact ⟨rfl, hrel⟩
termination_by rngMeasure a
decreasing_by exact draw_measure_lt _ _ _ (by assumption)

theorem unbiased_rel (lo hi : Nat) (a b : RNG) (h : rngRel a b) :
    (unbiased lo hi a).1 = (unbiased lo hi b).1 ∧
    rngRel (unbiased lo hi a).2 (unbiased lo hi b).2 := by
  by_cases h1 : min lo hi = max lo hi
  · simp only [unbiased, if_pos h1]
    exact ⟨trivial, h⟩
  · by_cases h2 : max lo hi - min lo hi = MAX64
    · simp only [unbiased, if_neg h1, if_pos h2]
      exact draw_rel a b h
    · simp only [unbiased, if_neg h1, if_neg h2]
      exact unbiasedLoop_rel _ _ _ a b h

theorem stepOp_rel (op : RNGOp) (a b : RNG) (h : rngRel a b) :
    (stepOp op a).1 = (stepOp op b).1 ∧ rngRel (stepOp op a).2 (stepOp op b).2 := by
  cases op with
  | drawOp => exact draw_rel a b h
  | unbiasedOp lo hi => exact unbiased_rel lo hi a b h
  | discardOp n =>
      have hd := discard_rel n a b h
      simp only [stepOp]
      rcases ha : discard n a with ⟨ra, a2⟩
      rcases hb : discard n b with ⟨rb, b2⟩
      rw [ha, hb] at hd
      have hr : ra = rb := hd.1
      have hrel : rngRel a2 b2 := hd.2
      subst hr
      rcases ra with e | u
      · exact ⟨rfl, hrel⟩
      · exact ⟨rfl, hrel⟩

theorem runOps_rel (ops : List RNGOp) (a b : RNG) (h : rngRel a b) :
    runOps ops a = runOps ops b := by
  induction ops generalizing a b with
  | nil => rfl
  | cons op ops ih =>
      have hs := stepOp_rel op a b h
      simp only [runOps]
      rw [hs.1, ih _ _ hs.2]

theorem rel_of_inv_eq (a b : RNG) (ha : RNGInv a) (hb : RNGInv b)
    (hk : a.key = b.key) (h0 : a.nonce0 = b.nonce0) (h1 : a.nonce1 = b.nonce1)
    (hc : a.counter = b.counter) (hw : a.wordIndex = b.wordIndex) : rngRel a b := by
  refine ⟨hk, h0, h1, hc, hw, ?_⟩
  intro hlt
  rw [ha.2.2.2 hlt, hb.2.2.2 (hw ▸ hlt), hk, h0, h1, hc]

/-! ## Claims -/

/-- C1: the claim states that the context string built by
`generate_password` is exactly
`"StonePassword_v1.0\0" V "\0" U "\0" S "\0" "len:" L "\0upper:" b
"\0lower:" b "\0digits:" b "\0symbols:" b`.  The code builds this string
from C string literals through `std::string`, which truncates each literal
at its first NUL byte: the separator after the magic prefix and the four
`"\0upper:" … "\0symbols:"` labels are silently dropped.  Evaluating the
code's construction at username `alice`, site `github.com`, length 20,
version 1, all flags set shows the actual context and that it differs from
the claimed byte string. -/
theorem C1_context_missing_separators :
    buildContext "alice" "github.com" 20 1 true true true true =
      "StonePassword_v1.01" ++ nulStr ++ "alice" ++ nulStr ++ "github.com" ++
        nulStr ++ "len:201111" ∧
    buildContext "alice" "github.com" 20 1 true true true true ≠
      specContext "alice" "github.com" 20 1 true true true true := by
  constructor
  · decide
  · decide

/-- C2: the claim asserts that the rejection sampling of
`StoneRNG::unbiased` is exactly uniform.  With `range = 2`
(`lo = 0`, `hi = 1`), the loop accepts the `limit + 1 = 2^64 - 1` words
`v ≤ limit = MAX64 - (MAX64 % 2)`; `2^63` of them have residue 0 and only
`2^63 - 1` have residue 1, so the result `lo` is produced by one more
accepted keystream word than the result `lo + 1` — the sampling is biased,
contradicting the code's own "no modulo bias" contract. -/
theorem C2_unbiased_rejection_biased :
    acceptCount 2 0 = 2 ^ 63 ∧ acceptCount 2 1 = 2 ^ 63 - 1 ∧
      acceptCount 2 0 ≠ acceptCount 2 1 := by
  have hM : M64 = 18446744073709551616 := rfl
  have hlim : unbiasedLimit 2 = M64 - 2 := by norm_num [unbiasedLimit, MAX64, hM]
  have key : ∀ r, acceptCount 2 r =
      ((Finset.range (M64 - 1)).filter (fun v => v % 2 = r)).card := by
    intro r
    unfold acceptCount
    have hset : (Finset.range M64).filter (fun v => v ≤ unbiasedLimit 2 ∧ v % 2 = r) =
        (Finset.range (M64 - 1)).filter (fun v => v % 2 = r) := by
      ext v
      simp only [Finset.mem_filter, Finset.mem_range, hlim, hM]
      omega
    rw [hset]
  refine ⟨?_, ?_, ?_⟩
  · rw [key 0, card_filter_mod_two_zero, hM]
    norm_num
  · rw [key 1, card_filter_mod_two_one, hM]
    norm_num
  · rw [key 0, key 1, card_filter_mod_two_zero, card_filter_mod_two_one, hM]
    norm_num

/-- C3: the claim states that once the block counter wraps to 0 every
further operation fails and the generator never silently continues.  From
the public constructor state with initial counter `2^64 - 2`, the 9th draw
(index 8) does throw at the wrap — but the state mutations made before the
throw survive, so the 10th draw (index 9) succeeds again, the buffer of
block `2^64 - 1` is handed out, and the 18th draw (index 17) refills from
counter 0, silently restarting the keystream cycle with the counter back at
1. -/
theorem C3_exhaustion_not_permanent :
    isOkE ((drawSeq 18 nearWrapRNG).1.getD 8 (.ok 0)) = false ∧
    isOkE ((drawSeq 18 nearWrapRNG).1.getD 9 (.error (.runtimeError ""))) = true ∧
    isOkE ((drawSeq 18 nearWrapRNG).1.getD 17 (.error (.runtimeError ""))) = true ∧
    (drawSeq 18 nearWrapRNG).2.counter = 1 :=
  ⟨rfl, rfl, rfl, rfl⟩

/-- C4 counterexample: the claim says `StoneKey` rejects every `m_cost`
outside `10..26`, in particular any `m_cost < 10`; but the call with
`m_cost = 5` (non-empty password, `t_cost = 1`) succeeds — the code checks
only the upper bound. -/
theorem C4_low_mcost_not_rejected : isOkE (StoneKey "a" "" 5 1) = true := rfl

/-- C4 amended: `StoneKey` enforces only the upper memory-cost bound:
it fails, and fails with `std::invalid_argument`, exactly when
`m_cost > 26`, `t_cost = 0`, or the password is empty — `m_cost < 10` is
accepted — and every successful call returns a 32-byte key. -/
theorem C4_validation_amended :
    ∀ (p c : String) (m t : Nat),
      (isOkE (StoneKey p c m t) = true ↔
        (p.isEmpty = false ∧ m ≤ 26 ∧ 1 ≤ t)) ∧
      (isInvalidArg (StoneKey p c m t) = true ↔
        (p.isEmpty = true ∨ 26 < m ∨ t = 0)) ∧
      keyLenOk (StoneKey p c m t) := by
  intro p c m t
  unfold StoneKey
  by_cases hm : m > 26
  · rw [if_pos hm]
    refine ⟨by simp [isOkE]; omega, by simp [isInvalidArg]; omega, trivial⟩
  · rw [if_neg hm]
    by_cases ht : t = 0
    · rw [if_pos ht]
      refine ⟨by simp [isOkE]; omega, by simp [isInvalidArg]; omega, trivial⟩
    · rw [if_neg ht]
      by_cases hp : p.isEmpty
      · rw [if_pos hp]
        refine ⟨by simp [isOkE, hp], by simp [isInvalidArg, hp], trivial⟩
      · rw [if_neg hp]
        refine ⟨?_, ?_, ?_⟩
        · simp only [isOkE, true_iff]
          refine ⟨by simpa using hp, by omega, by omega⟩
        · constructor
          · intro h
            simp [isInvalidArg] at h
          · intro h
            rcases h with h | h | h
            · exact absurd h hp
            · omega
            · exact absurd h ht
        · exact stoneKeyBody_length p c m t

/-- C10: `Compressor::finalize` is `const` and works on a copy of the
state: it leaves the compressor state untouched, repeated finalizations
(with any total-byte counts) produce the digests of the unchanged state,
and an `update` after a `finalize` acts exactly on the original state. -/
theorem C10_finalize_pure :
    ∀ (st : List Nat) (tb tb2 : Nat) (b : List Nat),
      (compFinalize tb st).2 = st ∧
      (compFinalize tb ((compFinalize tb2 st).2)).1 = (compFinalize tb st).1 ∧
      compUpdate ((compFinalize tb st).2) b = compUpdate st b := by
  intro st tb tb2 b
  exact ⟨rfl, rfl, rfl⟩

/-- C9: the ChaCha block permutation may be called in place.  For every
64-byte (16-word) state, the in-place call — modelled by the sequential
store loop `addLoopInplace` over the very list being read — produces
exactly the non-aliasing result: 10 double rounds followed by the
word-wise addition of the original input mod 2^32. -/
theorem C9_permute_block_alias (s : List Nat) (h : s.length = 16) :
    permute_block_inplace s = permute_block s ∧
    permute_block s = List.zipWith (fun x y => (x + y) % M32) (doubleRounds 10 s) s := by
  refine ⟨?_, rfl⟩
  unfold permute_block_inplace permute_block
  rw [addLoopInplace_spec 16 _ s (by rw [doubleRounds_length]; omega) (by omega)]
  rw [List.drop_eq_nil_of_le (by omega), List.append_nil]
  apply List.take_of_length_le
  simp [doubleRounds_length, h]

/-- Witness for C9 at the RFC 8439 §2.3.2 test state. -/
theorem C9_permute_block_alias_witness :
    ([0x61707865, 0x3320646e, 0x79622d32, 0x6b206574,
      0x03020100, 0x07060504, 0x0b0a0908, 0x0f0e0d0c,
      0x13121110, 0x17161514, 0x1b1a1918, 0x1f1e1d1c,
      0x00000001, 0x09000000, 0x4a000000, 0x00000000] : List Nat).length = 16 ∧
    (permute_block_inplace
        [0x61707865, 0x3320646e, 0x79622d32, 0x6b206574,
         0x03020100, 0x07060504, 0x0b0a0908, 0x0f0e0d0c,
         0x13121110, 0x17161514, 0x1b1a1918, 0x1f1e1d1c,
         0x00000001, 0x09000000, 0x4a000000, 0x00000000] =
      permute_block
        [0x61707865, 0x3320646e, 0x79622d32, 0x6b206574,
         0x03020100, 0x07060504, 0x0b0a0908, 0x0f0e0d0c,
         0x13121110, 0x17161514, 0x1b1a1918, 0x1f1e1d1c,
         0x00000001, 0x09000000, 0x4a000000, 0x00000000] ∧
     permute_block
        [0x61707865, 0x3320646e, 0x79622d32, 0x6b206574,
         0x03020100, 0x07060504, 0x0b0a0908, 0x0f0e0d0c,
         0x13121110, 0x17161514, 0x1b1a1918, 0x1f1e1d1c,
         0x00000001, 0x09000000, 0x4a000000, 0x00000000] =
      List.zipWith (fun x y => (x + y) % M32)
        (doubleRounds 10
          [0x61707865, 0x3320646e, 0x79622d32, 0x6b206574,
           0x03020100, 0x07060504, 0x0b0a0908, 0x0f0e0d0c,
           0x13121110, 0x17161514, 0x1b1a1918, 0x1f1e1d1c,
           0x00000001, 0x09000000, 0x4a000000, 0x00000000])
        [0x61707865, 0x3320646e, 0x79622d32, 0x6b206574,
         0x03020100, 0x07060504, 0x0b0a0908, 0x0f0e0d0c,
         0x13121110, 0x17161514, 0x1b1a1918, 0x1f1e1d1c,
         0x00000001, 0x09000000, 0x4a000000, 0x00000000]) :=
  ⟨rfl, C9_permute_block_alias _ rfl⟩

/-- C6: the claim says `generate_password` fails with an invalid-argument
error iff one of the listed validation conditions holds, and returns a
password for every other input.  The input with all four require-flags
false passes every validation check (the required-category count is 0), yet
the fill loop draws from the empty `all_chars` pool:
`characters.size() - 1` wraps to `2^64 - 1` and `characters[idx]` indexes an
empty `std::string_view` out of bounds — undefined behaviour, modelled as a
runtime failure.  The call neither raises invalid-argument nor returns a
password. -/
theorem C6_no_required_categories_fails :
    isOkE (generate_password "a" "b" "c" 6 1 STONEPASS_UPPERCASE STONEPASS_LOWERCASE
      STONEPASS_DIGITS STONEPASS_SYMBOLS false false false false) = false ∧
    isInvalidArg (generate_password "a" "b" "c" 6 1 STONEPASS_UPPERCASE
      STONEPASS_LOWERCASE STONEPASS_DIGITS STONEPASS_SYMBOLS
      false false false false) = false := by
  rw [gp_all_false_reduce]
  obtain ⟨m, s', h⟩ := composeBody_all_false 6 STONEPASS_UPPERCASE STONEPASS_LOWERCASE
    STONEPASS_DIGITS STONEPASS_SYMBOLS
    (mkRNGfromBlock32 (stoneKeyBody "b"
      (buildContext "a" "c" 6 1 false false false false) 20 3)).2 (by norm_num)
  rw [h]
  exact ⟨rfl, rfl⟩

/-- C5: policy conformance of `generate_password`.  Whenever a password is
returned it has length exactly `password_length`, contains at least one
character from each required category's set, and every character lies in
the union `allChars` of the required categories' sets; inputs on which the
call fails satisfy the property vacuously. -/
theorem C5_policy_conformance (u p st : String) (L V : Nat) (cu cl cd cs : String)
    (bU bL bD bS : Bool) :
    policyConforms L cu cl cd cs bU bL bD bS
      (generate_password u p st L V cu cl cd cs bU bL bD bS) := by
  rcases hg : generate_password u p st L V cu cl cd cs bU bL bD bS with e | pwd
  · exact trivial
  · exact gp_ok_policy u p st L V cu cl cd cs bU bL bD bS pwd hg

/-- C8: `discard(n)` followed by one draw equals `n + 1` draws keeping the
last result — full equality of the drawn value and of the final generator
state — for every state reachable through the public interface
(`wordIndex ≤ 8`) and every `n` for which the block counter does not
overflow during the operations (the arithmetic bound below). -/
theorem C8_discard_then_draw_equiv :
    ∀ (n : Nat) (s : RNG), s.wordIndex ≤ 8 →
      s.counter + (s.wordIndex + n) / 8 + 1 < M64 →
      discardThenDraw n s = drawsLast (n + 1) s := by
  intro n
  induction n with
  | zero =>
      intro s hw hc
      rw [drawsLast_one]
      exact discardThenDraw_ok 0 s s (discard_zero s)
  | succ n ih =>
      intro s hw hc
      rcases s with ⟨key, n0, n1, c, buf, w⟩
      obtain ⟨v, s1, hdraw, hw1, hc1, heq⟩ :=
        discardThenDraw_step key n0 n1 c buf w n hw hc
      rw [heq, ih s1 hw1 hc1]
      exact (drawsLast_succ_ok n _ s1 v hdraw).symm

/-- Witness for C8: a freshly keyed generator, `n = 3`. -/
theorem C8_discard_then_draw_equiv_witness :
    ((mkRNG (List.replicate 8 0) 0 0 0).2.wordIndex ≤ 8 ∧
     (mkRNG (List.replicate 8 0) 0 0 0).2.counter +
       ((mkRNG (List.replicate 8 0) 0 0 0).2.wordIndex + 3) / 8 + 1 < M64) ∧
    discardThenDraw 3 (mkRNG (List.replicate 8 0) 0 0 0).2 =
      drawsLast (3 + 1) (mkRNG (List.replicate 8 0) 0 0 0).2 :=
  ⟨⟨by decide, by decide⟩,
   C8_discard_then_draw_equiv 3 (mkRNG (List.replicate 8 0) 0 0 0).2
     (by decide) (by decide)⟩

/-- C7: on states satisfying the reachable-state invariant `RNGInv`,
`StoneRNG::operator==` returns true exactly when the keys, nonces, block
counters and word indices of the two generators agree; and whenever it
returns true, the two generators produce identical observable outputs under
every identical subsequent sequence of public operations (draws, `unbiased`
calls and discards), even though the 64-byte keystream buffer is excluded
from the comparison. -/
theorem C7_equality_bisimulation (a b : RNG) (ha : RNGInv a) (hb : RNGInv b) :
    (rngEqB a b = true ↔
      (a.key = b.key ∧ a.nonce0 = b.nonce0 ∧ a.nonce1 = b.nonce1 ∧
        a.counter = b.counter ∧ a.wordIndex = b.wordIndex)) ∧
    (rngEqB a b = true → ∀ ops : List RNGOp, runOps ops a = runOps ops b) := by
  have hiff := rngEqB_iff a b ha.1 hb.1
  refine ⟨hiff, ?_⟩
  intro he ops
  obtain ⟨hk, h0, h1, hc, hw⟩ := hiff.mp he
  exact runOps_rel ops a b (rel_of_inv_eq a b ha hb hk h0 h1 hc hw)

set_option maxRecDepth 100000 in
/-- Witness for C7: the theorem applied to the concrete reachable state
`c7state` on both sides, the invariant hypotheses evaluated by `decide`. -/
theorem C7_equality_bisimulation_witness :
    (rngEqB c7state c7state = true ↔
      (c7state.key = c7state.key ∧ c7state.nonce0 = c7state.nonce0 ∧
        c7state.nonce1 = c7state.nonce1 ∧ c7state.counter = c7state.counter ∧
        c7state.wordIndex = c7state.wordIndex)) ∧
    (rngEqB c7state c7state = true →
      ∀ ops : List RNGOp, runOps ops c7state = runOps ops c7state) :=
  C7_equality_bisimulation c7state c7state
    ⟨by decide, by decide, by decide, fun _ => by decide⟩
    ⟨by decide, by decide, by decide, fun _ => by decide⟩

end StonePass
